import Mathlib

/-!
Shallow embedding of the dependency-discovery core of the `github-deps`
repository (TypeScript), covering `src/store/utils/dependencyUtils.ts`
(current revision: the one whose `parseVersion` zero-fills partial
versions, whose `getVersionDifference` handles prereleases, and whose
`getLatestTag` paginates and partitions stable/prerelease tags) and the
graph-building thunk `fetchDependencies` of
`src/store/slices/dependencySlice.ts`.

Strings are modelled with Lean `String` (a wrapper around `List Char`);
the JavaScript regular expressions used by the source are hand-compiled
into character-list functions, each documented with the regex it
implements.  JavaScript's falsy test on strings (only the empty string
is falsy) is modelled by `jsStr`.  The asynchronous code is modelled by
its sequential data flow; network calls are fields of a `World` record
(`Except`/`Option`-valued where the source catches failures).
-/

namespace GithubDeps

/-! ## Character-list helpers -/

/-- Lowercase a string character-wise (model of JS `String.prototype.toLowerCase`
on the ASCII range used by the repository). -/
def lowerStr (s : String) : String := ⟨s.data.map Char.toLower⟩

/-- True when the first list is an initial segment of the second. -/
def leadsWith : List Char → List Char → Bool
  | [], _ => true
  | _ :: _, [] => false
  | p :: ps, c :: cs => p = c && leadsWith ps cs

/-- True when `pat` occurs as a contiguous sublist of `text`
(model of JS `String.prototype.includes`). -/
def hasSub (pat : List Char) : List Char → Bool
  | [] => leadsWith pat []
  | c :: rest => leadsWith pat (c :: rest) || hasSub pat rest

/-- `hasSub` lifted to `String`. -/
def hasSubStr (pat text : String) : Bool := hasSub pat.data text.data

/-- `leadsWith` lifted to `String` (model of JS `String.prototype.startsWith`). -/
def startsWithStr (pre text : String) : Bool := leadsWith pre.data text.data

/-- Split a character list into the chunks separated by `sep`
(model of JS `String.prototype.split` with a single-character separator:
the result is never empty, and empty chunks are kept). -/
def splitChunks (sep : Char) : List Char → List (List Char)
  | [] => [[]]
  | c :: rest =>
    match splitChunks sep rest with
    | [] => [[]]
    | h :: t => if c = sep then [] :: h :: t else (c :: h) :: t

/-- The chunk at index 1 of a `'/'`-split, as an optional string
(model of the JS pattern `name.split('/')[1]`, which is `undefined`
when the string holds no `'/'`). -/
def chunkGet1 (s : String) : Option String :=
  ((splitChunks '/' s.data).get? 1).map (fun l => ⟨l⟩)

/-- JS truthiness for an optional string: `undefined`/`null` and the
empty string are falsy.  `jsStr o` is `some v` exactly when the JS
value would be truthy. -/
def jsStr : Option String → Option String
  | none => none
  | some s => if s = "" then none else some s

/-- First-occurrence deduplication (model of JS `Set` insertion order or
object-key order: membership test, append when new). -/
def addSet (l : List String) (s : String) : List String :=
  if l.contains s then l else l ++ [s]

/-- Dedup a list of keys keeping first occurrences (model of the key set
of a JS object built from a list of entries). -/
def dedupFirst (l : List String) : List String := l.foldl addSet []

/-- First-match association lookup (model of JS object property access
`obj[k]` for objects decoded from JSON, yielding `undefined` when the
key is absent). -/
def assocGet (l : List (String × String)) (k : String) : Option String :=
  (l.find? (fun p => p.1 = k)).map (fun p => p.2)

/-- Update-or-append for an association list (model of JS
`Map.prototype.set`: an existing key keeps its position, a new key is
appended). -/
def assocSet (l : List (String × String)) (k v : String) : List (String × String) :=
  if (l.find? (fun p => p.1 = k)).isSome then
    l.map (fun p => if p.1 = k then (k, v) else p)
  else l ++ [(k, v)]

/-- Value of a digit list under base-10 reading (model of
`parseInt(_, 10)` applied to a capture group of `\d+`). -/
def digitsToNat (l : List Char) : Nat :=
  l.foldl (fun n c => n * 10 + (c.toNat - '0'.toNat)) 0

/-! ## VersionModel: `parseVersion` (dependencyUtils.ts, current revision) -/

/-- Parsed version record: `{ major, minor, patch, prerelease }`. -/
structure ParsedVersion where
  major : Nat
  minor : Nat
  patch : Nat
  prerelease : Option String
deriving DecidableEq, Repr

/-- Strip one leading `'v'` (model of `version.replace(/^v/, '')`). -/
def stripV (l : List Char) : List Char :=
  if l.head? = some 'v' then l.tail else l

/-- Test for the regex `^\d+\.\d+$`. -/
def isNumDotNum (l : List Char) : Bool :=
  let ds := l.takeWhile Char.isDigit
  match l.dropWhile Char.isDigit with
  | c :: r => c = '.' && (!ds.isEmpty && (!r.isEmpty && r.all Char.isDigit))
  | [] => false

/-- Consume one optional group `(?:\.(\d+))?` at the head of the list:
returns the captured digits (if the group matched) and the rest. -/
def optDotNum (l : List Char) : Option (List Char) × List Char :=
  match l with
  | c :: rest =>
    if c = '.' then
      match rest.takeWhile Char.isDigit, rest.dropWhile Char.isDigit with
      | [], _ => (none, l)
      | ds, r => (some ds, r)
    else (none, l)
  | [] => (none, [])

/-- Anchored match of `^(\d+)(?:\.(\d+))?(?:\.(\d+))?(?:-(.+))?$`:
`none` when the whole list does not match, otherwise the four captures
(the numeric ones already converted, absent ones zero-filled as the
source does with `match[i] || '0'`). -/
def parseCoreMatch (l : List Char) : Option ParsedVersion :=
  match l.takeWhile Char.isDigit, l.dropWhile Char.isDigit with
  | [], _ => none
  | ds, r =>
    let (mi, r2) := optDotNum r
    let (pa, r3) := optDotNum r2
    match r3 with
    | [] => some ⟨digitsToNat ds, digitsToNat (mi.getD []), digitsToNat (pa.getD []), none⟩
    | c :: rest =>
      if c = '-' then
        match rest with
        | [] => none
        | c2 :: suf => some ⟨digitsToNat ds, digitsToNat (mi.getD []),
            digitsToNat (pa.getD []), some ⟨c2 :: suf⟩⟩
      else none

/-- The final branch of the source's `parseVersion`: regex match with
all-zero fallback. -/
def parseMain (l : List Char) : ParsedVersion :=
  (parseCoreMatch l).getD ⟨0, 0, 0, none⟩

/-- `parseVersion` (dependencyUtils.ts, current revision), on the
character list of the argument.  The source recurses on
`cleanVersion + '.0'` / `cleanVersion + '.0.0'` for the `X.Y` / `X`
shortcut branches; both recursive calls immediately fall through to the
final regex branch (their argument starts with a digit and matches
neither shortcut), which the embedding inlines as `parseMain`. -/
def parseVersionL (l : List Char) : ParsedVersion :=
  let clean := stripV l
  if isNumDotNum clean then parseMain (clean ++ ['.', '0'])
  else if !clean.isEmpty && clean.all Char.isDigit then parseMain (clean ++ ['.', '0', '.', '0'])
  else parseMain clean

/-- `parseVersion` (dependencyUtils.ts, current revision). -/
def parseVersion (version : String) : ParsedVersion := parseVersionL version.data

/-! ## VersionModel: `getVersionDifference` (dependencyUtils.ts, current revision) -/

/-- Result record `VersionInfo` of `getVersionDifference`; `type` holds
one of the source's literals "none" / "patch" / "minor" / "major". -/
structure VersionInfo where
  current : String
  latest : String
  type : String
deriving DecidableEq, Repr

/-- Character class `[\w.]` of the cleanup regex (`\w` is letters,
digits and underscore). -/
def isWordDot (c : Char) : Bool := c.isAlphanum || c = '_' || c = '.'

theorem dropWhileLenLe (p : Char → Bool) (l : List Char) :
    (l.dropWhile p).length ≤ l.length := by
  induction l with
  | nil => simp [List.dropWhile]
  | cons c cs ih =>
    by_cases h : p c
    · simp only [List.dropWhile_cons, h, if_true, List.length_cons]
      omega
    · simp [List.dropWhile_cons, h]

/-- Consume `(?:\.\d+)*` greedily at the head of the list, with
explicit fuel (each iteration consumes at least two characters, so
`l.length` fuel is always enough; the zero-fuel branch is unreachable
when called through `dotNumGroups`). -/
def dotNumGroupsF : Nat → List Char → List Char × List Char
  | 0, l => ([], l)
  | fuel + 1, c0 :: c :: rest =>
    if c0 = '.' && c.isDigit then
      let ds := (c :: rest).takeWhile Char.isDigit
      let r2 := (c :: rest).dropWhile Char.isDigit
      let (more, fin) := dotNumGroupsF fuel r2
      (c0 :: (ds ++ more), fin)
    else ([], c0 :: c :: rest)
  | _ + 1, l => ([], l)

/-- Consume `(?:\.\d+)*` greedily at the head of the list, returning
the consumed part and the rest. -/
def dotNumGroups (l : List Char) : List Char × List Char :=
  dotNumGroupsF l.length l

/-- Consume the optional `(?:-[\w.]+)?` at the head of the list,
returning the consumed part. -/
def dashSuffix : List Char → List Char
  | c :: rest =>
    if c = '-' then
      let ws := rest.takeWhile isWordDot
      if ws.isEmpty then [] else c :: ws
    else []
  | [] => []

/-- First match of the cleanup regex `\d+(?:\.\d+)*(?:-[\w.]+)?` in the
string, or the string itself when there is no digit anywhere (model of
`s.match(/\d+(?:\.\d+)*(?:-[\w.]+)?/)?.[0] || s`). -/
def cleanupVersionL (l0 : List Char) : List Char :=
  let fromDigit := l0.dropWhile (fun c => !c.isDigit)
  match fromDigit with
  | [] => l0
  | l =>
    let ds := l.takeWhile Char.isDigit
    let r := l.dropWhile Char.isDigit
    let (gs, r2) := dotNumGroups r
    ds ++ gs ++ dashSuffix r2

/-- `cleanupVersion` lifted to `String`. -/
def cleanupVersion (s : String) : String := ⟨cleanupVersionL s.data⟩

/-- `getVersionDifference` (dependencyUtils.ts, current revision). -/
def getVersionDifference (current latest : String) : VersionInfo :=
  if current = "" || latest = "" then ⟨current, latest, "none"⟩
  else
    let currentVersion := parseVersion (cleanupVersion current)
    let latestVersion := parseVersion (cleanupVersion latest)
    if currentVersion.major = 0 && currentVersion.minor = 0 && currentVersion.patch = 0 &&
       latestVersion.major = 0 && latestVersion.minor = 0 && latestVersion.patch = 0 then
      ⟨current, latest, "none"⟩
    else if currentVersion.major = latestVersion.major &&
        currentVersion.minor = latestVersion.minor &&
        currentVersion.patch = latestVersion.patch &&
        currentVersion.prerelease.isSome && !latestVersion.prerelease.isSome then
      ⟨current, latest, "patch"⟩
    else if (latestVersion.prerelease.isSome && !currentVersion.prerelease.isSome) ||
        (latestVersion.prerelease.isSome && currentVersion.prerelease.isSome) then
      ⟨current, latest, "none"⟩
    else if latestVersion.major > currentVersion.major then ⟨current, latest, "major"⟩
    else if latestVersion.major = currentVersion.major &&
        latestVersion.minor > currentVersion.minor then ⟨current, latest, "minor"⟩
    else if latestVersion.major = currentVersion.major &&
        latestVersion.minor = currentVersion.minor &&
        latestVersion.patch > currentVersion.patch then ⟨current, latest, "patch"⟩
    else ⟨current, latest, "none"⟩

/-! ## Lemmas about the hand-compiled regexes -/

/-- A list whose head (if any) is not a decimal digit. -/
def headNotDigit (l : List Char) : Prop :=
  ∀ c, l.head? = some c → c.isDigit = false

theorem takeWhileDigitsAppend (l r : List Char) (hl : l.all Char.isDigit = true)
    (hr : headNotDigit r) : (l ++ r).takeWhile Char.isDigit = l := by
  induction l with
  | nil =>
    cases r with
    | nil => rfl
    | cons c cs => simp [List.takeWhile_cons, hr c rfl]
  | cons c cs ih =>
    simp only [List.all_cons, Bool.and_eq_true] at hl
    simp [List.takeWhile_cons, hl.1, ih hl.2]

theorem dropWhileDigitsAppend (l r : List Char) (hl : l.all Char.isDigit = true)
    (hr : headNotDigit r) : (l ++ r).dropWhile Char.isDigit = r := by
  induction l with
  | nil =>
    cases r with
    | nil => rfl
    | cons c cs => simp [List.dropWhile_cons, hr c rfl]
  | cons c cs ih =>
    simp only [List.all_cons, Bool.and_eq_true] at hl
    simp [List.dropWhile_cons, hl.1, ih hl.2]

theorem allDigitsFalseOfMem (l : List Char) (c : Char) (hc : c ∈ l)
    (h : c.isDigit = false) : l.all Char.isDigit = false := by
  rw [Bool.eq_false_iff]
  intro hall
  rw [List.all_eq_true] at hall
  have := hall c hc
  rw [h] at this
  exact Bool.false_ne_true this

theorem headNotDigitDot (l : List Char) : headNotDigit ('.' :: l) := by
  intro c hc
  simp only [List.head?] at hc
  cases hc
  decide

theorem headNotDigitDash (l : List Char) : headNotDigit ('-' :: l) := by
  intro c hc
  simp only [List.head?] at hc
  cases hc
  decide

theorem stripVOfHeadNe (l : List Char) (h : l.head? ≠ some 'v') : stripV l = l := by
  simp [stripV, h]

theorem stripVOfHeadDigit (l : List Char) (c : Char) (hc : l.head? = some c)
    (hd : c.isDigit = true) : stripV l = l := by
  apply stripVOfHeadNe
  rw [hc]
  intro h
  cases h
  exact absurd hd (by decide)

/-- `^\d+\.\d+$` does match a digit run, a dot and a digit run. -/
theorem isNumDotNumSplit (l1 l2 : List Char) (h1 : l1 ≠ []) (hd1 : l1.all Char.isDigit = true)
    (h2 : l2 ≠ []) (hd2 : l2.all Char.isDigit = true) :
    isNumDotNum (l1 ++ '.' :: l2) = true := by
  unfold isNumDotNum
  rw [takeWhileDigitsAppend l1 ('.' :: l2) hd1 (headNotDigitDot l2),
    dropWhileDigitsAppend l1 ('.' :: l2) hd1 (headNotDigitDot l2)]
  simp [h1, h2, hd2]

/-- `^\d+\.\d+$` fails when the part after the first dot holds a
non-digit (in particular another dot or a dash). -/
theorem isNumDotNumDotFalse (l1 cs : List Char) (hd1 : l1.all Char.isDigit = true)
    (c : Char) (hc : c ∈ cs) (hcd : c.isDigit = false) :
    isNumDotNum (l1 ++ '.' :: cs) = false := by
  unfold isNumDotNum
  rw [takeWhileDigitsAppend l1 ('.' :: cs) hd1 (headNotDigitDot cs),
    dropWhileDigitsAppend l1 ('.' :: cs) hd1 (headNotDigitDot cs)]
  have hall : cs.all Char.isDigit = false := allDigitsFalseOfMem cs c hc hcd
  simp [hall]

/-- `^\d+\.\d+$` fails on a pure digit run. -/
theorem isNumDotNumAllDigits (l : List Char) (hd : l.all Char.isDigit = true) :
    isNumDotNum l = false := by
  unfold isNumDotNum
  have hnil : headNotDigit ([] : List Char) := by intro c hc; cases hc
  have h1 := takeWhileDigitsAppend l [] hd hnil
  have h2 := dropWhileDigitsAppend l [] hd hnil
  rw [List.append_nil] at h1 h2
  rw [h1, h2]

/-- `^\d+\.\d+$` fails when the first character is not a digit. -/
theorem isNumDotNumHeadBad (l : List Char) (hl : headNotDigit l) :
    isNumDotNum l = false := by
  unfold isNumDotNum
  cases l with
  | nil => rfl
  | cons c cs =>
    rw [List.takeWhile_cons, List.dropWhile_cons, hl c rfl]
    simp

theorem allDigitsFalseOfAppend (l1 r : List Char) (c : Char) (hc : c ∈ r)
    (hcd : c.isDigit = false) : (l1 ++ r).all Char.isDigit = false := by
  exact allDigitsFalseOfMem _ c (List.mem_append_right l1 hc) hcd

/-- `optDotNum` consumes a dot followed by a nonempty digit run. -/
theorem optDotNumSplit (l r : List Char) (hne : l ≠ []) (hd : l.all Char.isDigit = true)
    (hr : headNotDigit r) : optDotNum ('.' :: (l ++ r)) = (some l, r) := by
  simp only [optDotNum, if_pos rfl]
  rw [takeWhileDigitsAppend l r hd hr, dropWhileDigitsAppend l r hd hr]
  cases l with
  | nil => exact absurd rfl hne
  | cons c cs => rfl

/-- `optDotNum` consumes nothing when the head is not a dot, or when no
digit follows the dot. -/
theorem optDotNumNone (l : List Char)
    (h : ∀ c r, l = '.' :: c :: r → c.isDigit = false) : optDotNum l = (none, l) := by
  cases l with
  | nil => rfl
  | cons c0 rest =>
    by_cases hc0 : c0 = '.'
    · subst hc0
      cases rest with
      | nil => rfl
      | cons c1 r1 =>
        have hd := h c1 r1 rfl
        simp only [optDotNum, if_pos rfl, List.takeWhile_cons, hd]
        simp
    · simp only [optDotNum, if_neg hc0]

theorem takeWhileNilOfHeadBad (l : List Char) (hl : headNotDigit l) :
    l.takeWhile Char.isDigit = [] := by
  cases l with
  | nil => rfl
  | cons c cs => simp [List.takeWhile_cons, hl c rfl]

/-- The anchored version regex on `X.Y.Z` (no trailing suffix). -/
theorem parseMainThree (l1 l2 l3 : List Char)
    (h1 : l1 ≠ []) (hd1 : l1.all Char.isDigit = true)
    (h2 : l2 ≠ []) (hd2 : l2.all Char.isDigit = true)
    (h3 : l3 ≠ []) (hd3 : l3.all Char.isDigit = true) :
    parseMain (l1 ++ '.' :: (l2 ++ '.' :: l3)) =
      ⟨digitsToNat l1, digitsToNat l2, digitsToNat l3, none⟩ := by
  unfold parseMain parseCoreMatch
  rw [takeWhileDigitsAppend l1 _ hd1 (headNotDigitDot _),
    dropWhileDigitsAppend l1 _ hd1 (headNotDigitDot _)]
  obtain ⟨c, cs, rfl⟩ := List.exists_cons_of_ne_nil h1
  have e2 : optDotNum ('.' :: (l2 ++ '.' :: l3)) = (some l2, '.' :: l3) :=
    optDotNumSplit l2 ('.' :: l3) h2 hd2 (headNotDigitDot _)
  have e3 : optDotNum ('.' :: l3) = (some l3, []) := by
    have := optDotNumSplit l3 [] h3 hd3 (by intro c hc; cases hc)
    rwa [List.append_nil] at this
  simp only [e2, e3]
  rfl

/-- The anchored version regex on `X.Y.Z-suffix`. -/
theorem parseMainSuffix (l1 l2 l3 : List Char) (c : Char) (suf : List Char)
    (h1 : l1 ≠ []) (hd1 : l1.all Char.isDigit = true)
    (h2 : l2 ≠ []) (hd2 : l2.all Char.isDigit = true)
    (h3 : l3 ≠ []) (hd3 : l3.all Char.isDigit = true) :
    parseMain (l1 ++ '.' :: (l2 ++ '.' :: (l3 ++ '-' :: c :: suf))) =
      ⟨digitsToNat l1, digitsToNat l2, digitsToNat l3, some ⟨c :: suf⟩⟩ := by
  unfold parseMain parseCoreMatch
  rw [takeWhileDigitsAppend l1 _ hd1 (headNotDigitDot _),
    dropWhileDigitsAppend l1 _ hd1 (headNotDigitDot _)]
  obtain ⟨c1, cs, rfl⟩ := List.exists_cons_of_ne_nil h1
  have e2 : optDotNum ('.' :: (l2 ++ '.' :: (l3 ++ '-' :: c :: suf))) =
      (some l2, '.' :: (l3 ++ '-' :: c :: suf)) :=
    optDotNumSplit l2 _ h2 hd2 (headNotDigitDot _)
  have e3 : optDotNum ('.' :: (l3 ++ '-' :: c :: suf)) = (some l3, '-' :: c :: suf) :=
    optDotNumSplit l3 _ h3 hd3 (headNotDigitDash _)
  simp only [e2, e3]
  simp

/-- `parseVersion` on a nonempty pure digit run: zero-filled via the
`X` shortcut branch. -/
theorem parseVersionLDigits (l : List Char) (hne : l ≠ []) (hd : l.all Char.isDigit = true) :
    parseVersionL l = ⟨digitsToNat l, 0, 0, none⟩ := by
  have hc : ∀ c, l.head? = some c → c.isDigit = true := by
    intro c h
    obtain ⟨c0, cs, rfl⟩ := List.exists_cons_of_ne_nil hne
    cases h
    exact List.all_eq_true.mp hd _ (List.mem_cons_self _ _)
  have hsv : stripV l = l := by
    obtain ⟨c0, cs, rfl⟩ := List.exists_cons_of_ne_nil hne
    exact stripVOfHeadDigit _ c0 rfl (hc c0 rfl)
  unfold parseVersionL
  rw [hsv]
  dsimp only
  rw [isNumDotNumAllDigits _ hd]
  simp only [Bool.false_eq_true, if_false]
  rw [if_pos (by simp [hne, hd])]
  have : parseMain (l ++ ['.', '0', '.', '0']) =
      ⟨digitsToNat l, digitsToNat ['0'], digitsToNat ['0'], none⟩ := by
    show parseMain (l ++ '.' :: (['0'] ++ '.' :: ['0'])) = _
    exact parseMainThree l ['0'] ['0'] hne hd (by decide) (by decide) (by decide) (by decide)
  rw [this]
  rfl

/-- `parseVersion` on `X.Y`: patch zero-filled via the `X.Y` shortcut
branch. -/
theorem parseVersionLPair (l1 l2 : List Char)
    (h1 : l1 ≠ []) (hd1 : l1.all Char.isDigit = true)
    (h2 : l2 ≠ []) (hd2 : l2.all Char.isDigit = true) :
    parseVersionL (l1 ++ '.' :: l2) = ⟨digitsToNat l1, digitsToNat l2, 0, none⟩ := by
  have hsv : stripV (l1 ++ '.' :: l2) = l1 ++ '.' :: l2 := by
    obtain ⟨c0, cs, rfl⟩ := List.exists_cons_of_ne_nil h1
    exact stripVOfHeadDigit _ c0 rfl (List.all_eq_true.mp hd1 _ (List.mem_cons_self _ _))
  unfold parseVersionL
  rw [hsv]
  dsimp only
  rw [isNumDotNumSplit l1 l2 h1 hd1 h2 hd2, if_pos rfl]
  have : (l1 ++ '.' :: l2) ++ ['.', '0'] = l1 ++ '.' :: (l2 ++ '.' :: ['0']) := by
    simp
  rw [this, parseMainThree l1 l2 ['0'] h1 hd1 h2 hd2 (by decide) (by decide)]
  rfl

/-- `parseVersion` on `X.Y.Z-suffix`: the suffix is captured verbatim. -/
theorem parseVersionLFull (l1 l2 l3 : List Char) (c : Char) (suf : List Char)
    (h1 : l1 ≠ []) (hd1 : l1.all Char.isDigit = true)
    (h2 : l2 ≠ []) (hd2 : l2.all Char.isDigit = true)
    (h3 : l3 ≠ []) (hd3 : l3.all Char.isDigit = true) :
    parseVersionL (l1 ++ '.' :: (l2 ++ '.' :: (l3 ++ '-' :: c :: suf))) =
      ⟨digitsToNat l1, digitsToNat l2, digitsToNat l3, some ⟨c :: suf⟩⟩ := by
  have hsv : stripV (l1 ++ '.' :: (l2 ++ '.' :: (l3 ++ '-' :: c :: suf))) =
      l1 ++ '.' :: (l2 ++ '.' :: (l3 ++ '-' :: c :: suf)) := by
    obtain ⟨c0, cs, rfl⟩ := List.exists_cons_of_ne_nil h1
    exact stripVOfHeadDigit _ c0 rfl (List.all_eq_true.mp hd1 _ (List.mem_cons_self _ _))
  unfold parseVersionL
  rw [hsv]
  dsimp only
  rw [isNumDotNumDotFalse l1 _ hd1 '.'
    (List.mem_append_right l2 (List.mem_cons_self _ _)) (by decide)]
  simp only [Bool.false_eq_true, if_false]
  rw [if_neg (by
    rw [allDigitsFalseOfAppend l1 _ '.' (List.mem_cons_self _ _) (by decide)]
    simp)]
  exact parseMainSuffix l1 l2 l3 c suf h1 hd1 h2 hd2 h3 hd3

/-- `parseVersion` maps a string with no leading digit run (after the
`v`-strip) to all-zero with no prerelease. -/
theorem parseVersionLNoDigit (l : List Char) (hl : headNotDigit (stripV l)) :
    parseVersionL l = ⟨0, 0, 0, none⟩ := by
  unfold parseVersionL
  dsimp only
  rw [isNumDotNumHeadBad _ hl]
  simp only [Bool.false_eq_true, if_false]
  have hcond : (!(stripV l).isEmpty && (stripV l).all Char.isDigit) = false := by
    cases h : stripV l with
    | nil => simp
    | cons c cs =>
      rw [h] at hl
      have := allDigitsFalseOfMem (c :: cs) c (List.mem_cons_self _ _) (hl c rfl)
      simp [this]
  rw [hcond]
  simp only [Bool.false_eq_true, if_false]
  unfold parseMain parseCoreMatch
  rw [takeWhileNilOfHeadBad _ hl]
  rfl

/-- Stripping behaviour: a single leading `'v'` is removed, and the
remainder is parsed as if the `'v'` had never been there. -/
theorem parseVersionLStripOne (l : List Char) (h : l.head? ≠ some 'v') :
    parseVersionL ('v' :: l) = parseVersionL l := by
  unfold parseVersionL
  rw [show stripV ('v' :: l) = l by simp [stripV], stripVOfHeadNe l h]


/-! ## Claim C4 -/

/-- C4, counterexample: at `a = "0.0.0-beta"`, `b = "0.0.0"` the parsed
(major, minor, patch) components are all equal, `a` has a prerelease tag
and `b` does not, yet `getVersionDifference` returns type "none" rather
than the "patch" the claim requires: the all-zero "unparseable" guard of
the source fires first on this (perfectly parseable) pair. -/
theorem C4_counterexample :
    (parseVersion "0.0.0-beta").major = (parseVersion "0.0.0").major ∧
    (parseVersion "0.0.0-beta").minor = (parseVersion "0.0.0").minor ∧
    (parseVersion "0.0.0-beta").patch = (parseVersion "0.0.0").patch ∧
    (parseVersion "0.0.0-beta").prerelease.isSome = true ∧
    (parseVersion "0.0.0").prerelease = none ∧
    (getVersionDifference "0.0.0-beta" "0.0.0").type = "none" ∧
    "none" ≠ "patch" := by decide

/-- C4 (amended): for nonempty version strings `a`, `b` whose cleaned-up
parses agree on (major, minor, patch) and are not both-sides-irrelevant
all-zero triples, `getVersionDifference a b` has type "patch" when `a`
has a prerelease tag and `b` does not, and type "none" whenever `b` has
a prerelease tag (whether or not `a` does).  In particular
`compare("2.0.0-beta", "2.0.0")` yields "patch" and
`compare("2.0.0", "2.0.0-beta")` yields "none". -/
theorem C4_amended (a b : String) (ha : a ≠ "") (hb : b ≠ "")
    (heq1 : (parseVersion (cleanupVersion a)).major = (parseVersion (cleanupVersion b)).major)
    (heq2 : (parseVersion (cleanupVersion a)).minor = (parseVersion (cleanupVersion b)).minor)
    (heq3 : (parseVersion (cleanupVersion a)).patch = (parseVersion (cleanupVersion b)).patch)
    (hnz : ¬((parseVersion (cleanupVersion a)).major = 0 ∧
        (parseVersion (cleanupVersion a)).minor = 0 ∧
        (parseVersion (cleanupVersion a)).patch = 0)) :
    ((parseVersion (cleanupVersion a)).prerelease.isSome = true →
      (parseVersion (cleanupVersion b)).prerelease = none →
      (getVersionDifference a b).type = "patch") ∧
    ((parseVersion (cleanupVersion b)).prerelease.isSome = true →
      (getVersionDifference a b).type = "none") := by
  have hz : ((parseVersion (cleanupVersion a)).major = 0 &&
      (parseVersion (cleanupVersion a)).minor = 0 &&
      (parseVersion (cleanupVersion a)).patch = 0 &&
      (parseVersion (cleanupVersion b)).major = 0 &&
      (parseVersion (cleanupVersion b)).minor = 0 &&
      (parseVersion (cleanupVersion b)).patch = 0) = false := by
    rw [Bool.eq_false_iff]
    intro hcon
    simp only [Bool.and_eq_true, decide_eq_true_eq] at hcon
    exact hnz ⟨hcon.1.1.1.1.1, hcon.1.1.1.1.2, hcon.1.1.1.2⟩
  constructor
  · intro hpa hpb
    unfold getVersionDifference
    rw [if_neg (by simp [ha, hb])]
    dsimp only
    rw [hz]
    simp only [Bool.false_eq_true, if_false]
    rw [if_pos (by simp [heq1, heq2, heq3, hpa, hpb])]
  · intro hpb
    unfold getVersionDifference
    rw [if_neg (by simp [ha, hb])]
    dsimp only
    rw [hz]
    simp only [Bool.false_eq_true, if_false]
    rw [if_neg (by simp [hpb]), if_pos (by
      cases hpa : (parseVersion (cleanupVersion a)).prerelease.isSome <;> simp [hpb, hpa])]

/-- C4, witness: the amended theorem instantiated at the claim's own
example pair. -/
theorem C4_witness :
    (getVersionDifference "2.0.0-beta" "2.0.0").type = "patch" ∧
    (getVersionDifference "2.0.0" "2.0.0-beta").type = "none" :=
  ⟨(C4_amended "2.0.0-beta" "2.0.0" (by decide) (by decide) (by decide) (by decide)
      (by decide) (by decide)).1 (by decide) (by decide),
   (C4_amended "2.0.0" "2.0.0-beta" (by decide) (by decide) (by decide) (by decide)
      (by decide) (by decide)).2 (by decide)⟩

/-! ## Claim C5 -/

/-- C5: `parseVersion` is total (it is a Lean function), and:
it parses `"v2.1"` to minor 1 / patch 0 and `"garbage"` to all-zero;
a single leading `'v'` is stripped and the rest parsed unchanged;
a pure digit run `X` parses to `(X, 0, 0)`; a pair `X.Y` of digit runs
parses to `(X, Y, 0)`; a full `X.Y.Z-suffix` captures the suffix after
the numeric core verbatim as the prerelease field; and any string whose
`v`-stripped form does not start with a digit parses to
`{0, 0, 0, null}`. -/
theorem C5_theorem :
    (parseVersion "v2.1" = ⟨2, 1, 0, none⟩ ∧ parseVersion "garbage" = ⟨0, 0, 0, none⟩) ∧
    (∀ s : String, s.data.head? ≠ some 'v' → parseVersion ⟨'v' :: s.data⟩ = parseVersion s) ∧
    (∀ l : List Char, l ≠ [] → l.all Char.isDigit = true →
      parseVersion ⟨l⟩ = ⟨digitsToNat l, 0, 0, none⟩) ∧
    (∀ l1 l2 : List Char, l1 ≠ [] → l1.all Char.isDigit = true → l2 ≠ [] →
      l2.all Char.isDigit = true →
      parseVersion ⟨l1 ++ '.' :: l2⟩ = ⟨digitsToNat l1, digitsToNat l2, 0, none⟩) ∧
    (∀ l1 l2 l3 : List Char, ∀ c : Char, ∀ suf : List Char,
      l1 ≠ [] → l1.all Char.isDigit = true → l2 ≠ [] → l2.all Char.isDigit = true →
      l3 ≠ [] → l3.all Char.isDigit = true →
      parseVersion ⟨l1 ++ '.' :: (l2 ++ '.' :: (l3 ++ '-' :: c :: suf))⟩ =
        ⟨digitsToNat l1, digitsToNat l2, digitsToNat l3, some ⟨c :: suf⟩⟩) ∧
    (∀ s : String, headNotDigit (stripV s.data) → parseVersion s = ⟨0, 0, 0, none⟩) := by
  refine ⟨⟨by decide, by decide⟩, ?_, ?_, ?_, ?_, ?_⟩
  · intro s h
    exact parseVersionLStripOne s.data h
  · intro l hne hd
    exact parseVersionLDigits l hne hd
  · intro l1 l2 h1 hd1 h2 hd2
    exact parseVersionLPair l1 l2 h1 hd1 h2 hd2
  · intro l1 l2 l3 c suf h1 hd1 h2 hd2 h3 hd3
    exact parseVersionLFull l1 l2 l3 c suf h1 hd1 h2 hd2 h3 hd3
  · intro s h
    exact parseVersionLNoDigit s.data h

/-- C5, witness: the universal components of the theorem instantiated
at concrete digit runs and suffix. -/
theorem C5_witness :
    parseVersion ⟨['2'] ++ '.' :: ['1']⟩ = ⟨2, 1, 0, none⟩ ∧
    parseVersion ⟨['1'] ++ '.' :: (['0'] ++ '.' :: (['2'] ++ '-' :: 'r' :: ['c']))⟩ =
      ⟨1, 0, 2, some "rc"⟩ ∧
    parseVersion ⟨'v' :: "2.1".data⟩ = parseVersion "2.1" ∧
    parseVersion "x9" = ⟨0, 0, 0, none⟩ :=
  ⟨C5_theorem.2.2.2.1 ['2'] ['1'] (by decide) (by decide) (by decide) (by decide),
   C5_theorem.2.2.2.2.1 ['1'] ['0'] ['2'] 'r' ['c'] (by decide) (by decide) (by decide)
     (by decide) (by decide) (by decide),
   C5_theorem.2.1 "2.1" (by decide),
   C5_theorem.2.2.2.2.2 "x9" (by
     intro c hc
     cases hc
     decide)⟩

/-! ## TagResolver: `getLatestTag` (dependencyUtils.ts, current revision) -/

/-- Strip one leading `'v'` from a tag name (model of
`tag.name.replace(/^v/, '')` at the return sites of `getLatestTag`). -/
def stripVName (s : String) : String := ⟨stripV s.data⟩

/-- The comparator `sortVersions` of `getLatestTag`: compares the
parsed (major, minor, patch) triples component-wise, descending, with
the JS sign convention (`versionB.major - versionA.major`, etc.). -/
def sortVersionsCmp (a b : String) : Int :=
  let versionA := parseVersion a
  let versionB := parseVersion b
  if versionA.major ≠ versionB.major then (versionB.major : Int) - (versionA.major : Int)
  else if versionA.minor ≠ versionB.minor then (versionB.minor : Int) - (versionA.minor : Int)
  else if versionA.patch ≠ versionB.patch then (versionB.patch : Int) - (versionA.patch : Int)
  else 0

/-- Stable insertion w.r.t. a JS comparator: the new element is placed
before the first resident it need not follow. -/
def insertByCmp (cmp : String → String → Int) (x : String) : List String → List String
  | [] => [x]
  | y :: ys => if cmp x y ≤ 0 then x :: y :: ys else y :: insertByCmp cmp x ys

/-- Stable sort by a JS comparator (model of `Array.prototype.sort`,
which is stable; for a consistent comparator such as `sortVersions` the
stable sorted order is unique, so insertion sort is a faithful model). -/
def sortByCmp (cmp : String → String → Int) : List String → List String
  | [] => []
  | x :: xs => insertByCmp cmp x (sortByCmp cmp xs)

/-- The pagination loop of `getLatestTag`: read pages 1, 2, ... of the
abstract page source and concatenate, stopping at an empty page (before
appending) or at a page shorter than `per_page = 100` (after
appending). -/
def collectTagPages : List (List String) → List String
  | [] => []
  | p :: rest =>
    if p.length = 0 then []
    else if p.length < 100 then p
    else p ++ collectTagPages rest

/-- `getLatestTag` (dependencyUtils.ts, current revision), as a function
of the abstract tag-page source; `Except.error` models a request that
throws (caught by the source's `try`/`catch` and turned into `null`).
The source partitions the tags into stable/prerelease in one pass
(modelled by two order-preserving filters), sorts each group in place
with `sortVersions`, and returns the head of the preferred group with a
leading `'v'` stripped. -/
def getLatestTagRun (fetch : Except Unit (List (List String))) : Option String :=
  match fetch with
  | .error _ => none
  | .ok pages =>
    let allTags := collectTagPages pages
    if allTags.length = 0 then none
    else
      let stableVersions := allTags.filter (fun t => !(parseVersion t).prerelease.isSome)
      let prereleaseVersions := allTags.filter (fun t => (parseVersion t).prerelease.isSome)
      match sortByCmp sortVersionsCmp stableVersions with
      | t :: _ => some (stripVName t)
      | [] =>
        match sortByCmp sortVersionsCmp prereleaseVersions with
        | t :: _ => some (stripVName t)
        | [] => none

/-- Well-formedness of an abstract tag-page source, reflecting the API
contract behind `per_page = 100` pagination: no page exceeds 100
entries, and once a page is short every later page is empty. -/
def pagesWF : List (List String) → Bool
  | [] => true
  | p :: rest =>
    (p.length ≤ 100 && (decide (100 ≤ p.length) || rest.all (fun q => q.isEmpty))) &&
      pagesWF rest

/-- The parsed (major, minor, patch) triple of a tag name. -/
def tripleOf (t : String) : Nat × Nat × Nat :=
  ((parseVersion t).major, (parseVersion t).minor, (parseVersion t).patch)

/-- Lexicographic order on parsed triples. -/
def leTriple (x y : Nat × Nat × Nat) : Prop :=
  x.1 < y.1 ∨ (x.1 = y.1 ∧ (x.2.1 < y.2.1 ∨ (x.2.1 = y.2.1 ∧ x.2.2 ≤ y.2.2)))

instance (x y : Nat × Nat × Nat) : Decidable (leTriple x y) := by
  unfold leTriple
  infer_instance

theorem cmpLeIff (a b : String) :
    sortVersionsCmp a b ≤ 0 ↔ leTriple (tripleOf b) (tripleOf a) := by
  unfold sortVersionsCmp tripleOf leTriple
  dsimp only
  split_ifs <;> omega

theorem cmpRefl (a : String) : sortVersionsCmp a a = 0 := by
  unfold sortVersionsCmp
  simp

theorem cmpTrans (a b c : String) (h1 : sortVersionsCmp a b ≤ 0)
    (h2 : sortVersionsCmp b c ≤ 0) : sortVersionsCmp a c ≤ 0 := by
  rw [cmpLeIff] at h1 h2 ⊢
  unfold leTriple at h1 h2 ⊢
  omega

theorem cmpTotal (a b : String) (h : ¬ sortVersionsCmp a b ≤ 0) :
    sortVersionsCmp b a ≤ 0 := by
  rw [cmpLeIff] at h ⊢
  unfold leTriple at h ⊢
  omega

theorem memInsertByCmp (cmp : String → String → Int) (x z : String) (l : List String) :
    z ∈ insertByCmp cmp x l ↔ z = x ∨ z ∈ l := by
  induction l with
  | nil => simp [insertByCmp]
  | cons y ys ih =>
    unfold insertByCmp
    split_ifs
    · simp
    · simp only [List.mem_cons, ih]
      tauto

theorem memSortByCmp (cmp : String → String → Int) (z : String) (l : List String) :
    z ∈ sortByCmp cmp l ↔ z ∈ l := by
  induction l with
  | nil => simp [sortByCmp]
  | cons x xs ih =>
    unfold sortByCmp
    rw [memInsertByCmp]
    simp [ih]

theorem sortByCmpNilIff (cmp : String → String → Int) (l : List String) :
    sortByCmp cmp l = [] ↔ l = [] := by
  cases l with
  | nil => simp [sortByCmp]
  | cons x xs =>
    simp only [sortByCmp]
    constructor
    · intro h
      exfalso
      have : x ∈ insertByCmp cmp x (sortByCmp cmp xs) := by
        rw [memInsertByCmp]
        left
        rfl
      rw [h] at this
      cases this
    · intro h
      cases h

theorem pairwiseInsertByCmp (x : String) (l : List String)
    (hl : List.Pairwise (fun a b => sortVersionsCmp a b ≤ 0) l) :
    List.Pairwise (fun a b => sortVersionsCmp a b ≤ 0)
      (insertByCmp sortVersionsCmp x l) := by
  induction l with
  | nil => simp [insertByCmp]
  | cons y ys ih =>
    rw [List.pairwise_cons] at hl
    unfold insertByCmp
    split_ifs with hxy
    · rw [List.pairwise_cons]
      constructor
      · intro z hz
        rcases List.mem_cons.mp hz with hzy | hzys
        · subst hzy
          exact hxy
        · exact cmpTrans x y z hxy (hl.1 z hzys)
      · rw [List.pairwise_cons]
        exact hl
    · rw [List.pairwise_cons]
      constructor
      · intro z hz
        rcases (memInsertByCmp sortVersionsCmp x z ys).mp hz with hzx | hzys
        · rw [hzx]
          exact cmpTotal x y hxy
        · exact hl.1 z hzys
      · exact ih hl.2

theorem pairwiseSortByCmp (l : List String) :
    List.Pairwise (fun a b => sortVersionsCmp a b ≤ 0) (sortByCmp sortVersionsCmp l) := by
  induction l with
  | nil => simp [sortByCmp]
  | cons x xs ih => exact pairwiseInsertByCmp x _ ih

/-- The head of the sorted list dominates every element of the original
list in the comparator order. -/
theorem sortHeadMax (l : List String) (t : String) (rest : List String)
    (h : sortByCmp sortVersionsCmp l = t :: rest) (x : String) (hx : x ∈ l) :
    sortVersionsCmp t x ≤ 0 := by
  have hmem : x ∈ sortByCmp sortVersionsCmp l := (memSortByCmp _ x l).mpr hx
  rw [h] at hmem
  rcases List.mem_cons.mp hmem with hxt | hxrest
  · subst hxt
    rw [cmpRefl]
  · have hp := pairwiseSortByCmp l
    rw [h, List.pairwise_cons] at hp
    exact hp.1 x hxrest

theorem joinNilOfAllEmpty (l : List (List String)) (h : l.all (fun q => q.isEmpty) = true) :
    l.flatten = [] := by
  induction l with
  | nil => rfl
  | cons p rest ih =>
    simp only [List.all_cons, Bool.and_eq_true] at h
    rw [List.flatten_cons, ih h.2, List.isEmpty_iff.mp h.1]
    rfl

/-- Under the API pagination contract, the loop of `getLatestTag`
collects exactly the concatenation of all pages. -/
theorem collectTagPagesJoin (pages : List (List String)) (hwf : pagesWF pages = true) :
    collectTagPages pages = pages.flatten := by
  induction pages with
  | nil => rfl
  | cons p rest ih =>
    unfold pagesWF at hwf
    simp only [Bool.and_eq_true, Bool.or_eq_true, decide_eq_true_eq] at hwf
    obtain ⟨⟨hle, hor⟩, hwfrest⟩ := hwf
    unfold collectTagPages
    rw [List.flatten_cons]
    split_ifs with h0 hshort
    · have hempty : rest.all (fun q => q.isEmpty) = true := by
        rcases hor with h100 | hall
        · omega
        · exact hall
      rw [joinNilOfAllEmpty rest hempty]
      have : p = [] := List.length_eq_zero.mp h0
      rw [this]
      rfl
    · have hempty : rest.all (fun q => q.isEmpty) = true := by
        rcases hor with h100 | hall
        · omega
        · exact hall
      rw [joinNilOfAllEmpty rest hempty, List.append_nil]
    · rw [ih hwfrest]

/-! ## Claim C3 -/

/-- C3: `getLatestTag`, over an abstract page source satisfying the
pagination contract (`pagesWF`): a failed fetch yields absent; the
pagination loop collects exactly the concatenation of all pages (all of
the repository's tags); no tags at all yields absent; when stable tags
exist the result is the name — with a leading "v" stripped — of a
stable tag whose parsed (major, minor, patch) triple dominates every
stable tag; and when only prerelease tags exist the result is a
dominating prerelease tag's name. -/
theorem C3_theorem :
    (getLatestTagRun (Except.error ()) = none) ∧
    (∀ pages : List (List String), pagesWF pages = true →
      (collectTagPages pages = pages.flatten) ∧
      (pages.flatten = [] → getLatestTagRun (Except.ok pages) = none) ∧
      (pages.flatten.filter (fun t => !(parseVersion t).prerelease.isSome) ≠ [] →
        ∃ t, t ∈ pages.flatten.filter (fun t => !(parseVersion t).prerelease.isSome) ∧
          getLatestTagRun (Except.ok pages) = some (stripVName t) ∧
          ∀ u ∈ pages.flatten.filter (fun t => !(parseVersion t).prerelease.isSome),
            leTriple (tripleOf u) (tripleOf t)) ∧
      (pages.flatten.filter (fun t => !(parseVersion t).prerelease.isSome) = [] →
        pages.flatten ≠ [] →
        ∃ t, t ∈ pages.flatten.filter (fun t => (parseVersion t).prerelease.isSome) ∧
          getLatestTagRun (Except.ok pages) = some (stripVName t) ∧
          ∀ u ∈ pages.flatten.filter (fun t => (parseVersion t).prerelease.isSome),
            leTriple (tripleOf u) (tripleOf t))) := by
  refine ⟨rfl, ?_⟩
  intro pages hwf
  have hcol := collectTagPagesJoin pages hwf
  refine ⟨hcol, ?_, ?_, ?_⟩
  · intro hnil
    unfold getLatestTagRun
    dsimp only
    rw [hcol, hnil]
    rfl
  · intro hS
    rcases hs : sortByCmp sortVersionsCmp
        (pages.flatten.filter (fun t => !(parseVersion t).prerelease.isSome)) with _ | ⟨t, rest⟩
    · exact absurd ((sortByCmpNilIff _ _).mp hs) hS
    · refine ⟨t, ?_, ?_, ?_⟩
      · have : t ∈ sortByCmp sortVersionsCmp
            (pages.flatten.filter (fun t => !(parseVersion t).prerelease.isSome)) := by
          rw [hs]
          exact List.mem_cons_self _ _
        exact (memSortByCmp _ _ _).mp this
      · unfold getLatestTagRun
        dsimp only
        rw [hcol]
        rw [if_neg (by
          intro hlen
          exact hS (by rw [List.length_eq_zero.mp hlen, List.filter_nil])), hs]
      · intro u hu
        exact (cmpLeIff t u).mp (sortHeadMax _ t rest hs u hu)
  · intro hS hne
    have hall : ∀ a ∈ pages.flatten, ((parseVersion a).prerelease.isSome : Bool) = true := by
      intro a ha
      have := List.filter_eq_nil_iff.mp hS a ha
      simp only [Bool.not_eq_true'] at this
      simp [this]
    have hP : pages.flatten.filter (fun t => (parseVersion t).prerelease.isSome) =
        pages.flatten := List.filter_eq_self.mpr hall
    rcases hs : sortByCmp sortVersionsCmp
        (pages.flatten.filter (fun t => (parseVersion t).prerelease.isSome)) with _ | ⟨t, rest⟩
    · rw [(sortByCmpNilIff _ _).mp hs] at hP
      exact absurd hP.symm hne
    · refine ⟨t, ?_, ?_, ?_⟩
      · have : t ∈ sortByCmp sortVersionsCmp
            (pages.flatten.filter (fun t => (parseVersion t).prerelease.isSome)) := by
          rw [hs]
          exact List.mem_cons_self _ _
        exact (memSortByCmp _ _ _).mp this
      · unfold getLatestTagRun
        dsimp only
        rw [hcol]
        rw [if_neg (by
          intro hlen
          exact hne (List.length_eq_zero.mp hlen)),
          (sortByCmpNilIff _ _).mpr hS, hs]
      · intro u hu
        exact (cmpLeIff t u).mp (sortHeadMax _ t rest hs u hu)

/-- C3, witness: the theorem instantiated at a single concrete page
with one stable and one prerelease tag. -/
theorem C3_witness :
    pagesWF [["v2", "v1-a"]] = true ∧
    ((collectTagPages [["v2", "v1-a"]] = [["v2", "v1-a"]].flatten) ∧
      ([["v2", "v1-a"]].flatten = [] → getLatestTagRun (Except.ok [["v2", "v1-a"]]) = none) ∧
      ([["v2", "v1-a"]].flatten.filter (fun t => !(parseVersion t).prerelease.isSome) ≠ [] →
        ∃ t, t ∈ [["v2", "v1-a"]].flatten.filter
            (fun t => !(parseVersion t).prerelease.isSome) ∧
          getLatestTagRun (Except.ok [["v2", "v1-a"]]) = some (stripVName t) ∧
          ∀ u ∈ [["v2", "v1-a"]].flatten.filter
              (fun t => !(parseVersion t).prerelease.isSome),
            leTriple (tripleOf u) (tripleOf t)) ∧
      ([["v2", "v1-a"]].flatten.filter (fun t => !(parseVersion t).prerelease.isSome) = [] →
        [["v2", "v1-a"]].flatten ≠ [] →
        ∃ t, t ∈ [["v2", "v1-a"]].flatten.filter
            (fun t => (parseVersion t).prerelease.isSome) ∧
          getLatestTagRun (Except.ok [["v2", "v1-a"]]) = some (stripVName t) ∧
          ∀ u ∈ [["v2", "v1-a"]].flatten.filter
              (fun t => (parseVersion t).prerelease.isSome),
            leTriple (tripleOf u) (tripleOf t))) :=
  ⟨by decide, C3_theorem.2 [["v2", "v1-a"]] (by decide)⟩

/-! ## DependencyClassifier: `extractDependencies` (dependencyUtils.ts) -/

/-- `normalizeRepoName` (dependencyUtils.ts): keep the organization as
supplied and lowercase the part after the first `/` of the dependency
name (`name.split('/')[1]`; every call site guarantees the `/` is
present, so the `getD` default is never used there). -/
def normalizeRepoName (name organization : String) : String :=
  organization ++ "/" ++ lowerStr ⟨(splitChunks '/' name.data).getD 1 []⟩

/-- `getPackageId` (dependencyUtils.ts). -/
def getPackageId (repoName composerName : String) : String :=
  repoName ++ ">" ++ composerName

/-- Decoded `composer.json` manifest (fields used by the core; the
`repositories` entries are modelled by their optional `url` field —
`none` for entries that are not objects with a string `url`). -/
structure ComposerJson where
  name : Option String
  version : Option String
  require : List (String × String)
  requireDev : List (String × String)
  repositories : List (Option String)
deriving DecidableEq

/-- Decoded `composer.lock` (the `packages` and `packages-dev` lists,
each entry reduced to its `name` and `version`). -/
structure ComposerLock where
  packages : List (String × String)
  packagesDev : List (String × String)
deriving DecidableEq

/-- Key list of the JS merge `{...require, ...require-dev}`: `require`
keys in order, then the `require-dev` keys not already present. -/
def mergedDepNames (m : ComposerJson) : List String :=
  dedupFirst (m.require.map Prod.fst ++ m.requireDev.map Prod.fst)

/-- Match `github\.com\/[^\/]+\/([^\/\.]+)` at the head of the list,
returning the capture group. -/
def githubCapAt (l : List Char) : Option String :=
  if leadsWith "github.com/".data l then
    let after := l.drop 11
    let seg1 := after.takeWhile (fun c => !(c = '/'))
    let rest1 := after.dropWhile (fun c => !(c = '/'))
    if seg1.isEmpty then none
    else
      match rest1 with
      | _ :: rest2 =>
        let cap := rest2.takeWhile (fun c => !(c = '/') && !(c = '.'))
        if cap.isEmpty then none else some ⟨cap⟩
      | [] => none
  else none

/-- First match of `github\.com\/[^\/]+\/([^\/\.]+)` anywhere in the
list (model of `url.match(...)`; the url is lowercased at the call
site, so the regex's `i` flag is moot). -/
def githubRepoCapture : List Char → Option String
  | [] => none
  | c :: rest =>
    match githubCapAt (c :: rest) with
    | some cap => some cap
    | none => githubRepoCapture rest

/-- `extractDependencies` (dependencyUtils.ts): organization-prefixed
require/require-dev names, normalized, plus repository names extracted
from `repositories` urls that contain "github.com" and one of the two
organization path-segment variations. -/
def extractDependencies (composerJson : ComposerJson) (organization : String) : List String :=
  let orgLower := lowerStr organization
  let fromDeps := (mergedDepNames composerJson).foldl (fun deps dep =>
    if startsWithStr (orgLower ++ "/") (lowerStr dep) then
      addSet deps (normalizeRepoName dep organization)
    else deps) []
  composerJson.repositories.foldl (fun deps repo =>
    match repo with
    | none => deps
    | some u =>
      let url := lowerStr u
      if hasSubStr "github.com" url &&
          (hasSubStr ("/" ++ orgLower ++ "/") url ||
            hasSubStr ("/" ++ organization ++ "/") url) then
        match githubRepoCapture url.data with
        | some repoName => addSet deps (organization ++ "/" ++ lowerStr repoName)
        | none => deps
      else deps) fromDeps

/-- Classifier following the CLAIM's wording instead of the source's:
a dependency name is selected when it holds a `/` and its prefix before
the first `/` case-insensitively equals the organization (the claim
leaves the `declaredRepositories` extraction to the code, so that part
is shared). -/
def classifySpecSide (composerJson : ComposerJson) (organization : String) : List String :=
  let orgLower := lowerStr organization
  let fromDeps := (mergedDepNames composerJson).foldl (fun deps dep =>
    if (lowerStr dep).data.contains '/' &&
        decide ((lowerStr dep).data.takeWhile (fun c => !(c = '/')) = orgLower.data) then
      addSet deps (normalizeRepoName dep organization)
    else deps) []
  composerJson.repositories.foldl (fun deps repo =>
    match repo with
    | none => deps
    | some u =>
      let url := lowerStr u
      if hasSubStr "github.com" url &&
          (hasSubStr ("/" ++ orgLower ++ "/") url ||
            hasSubStr ("/" ++ organization ++ "/") url) then
        match githubRepoCapture url.data with
        | some repoName => addSet deps (organization ++ "/" ++ lowerStr repoName)
        | none => deps
      else deps) fromDeps

/-- Prefix test against `o ++ "/"` coincides with "holds a `/` and the
part before the first `/` equals `o`", provided `o` itself is
slash-free. -/
theorem leadsWithSlashIff (o : List Char) (ho : '/' ∉ o) (ld : List Char) :
    leadsWith (o ++ ['/']) ld = true ↔
      (ld.contains '/' = true ∧ ld.takeWhile (fun c => !(c = '/')) = o) := by
  induction o generalizing ld with
  | nil =>
    cases ld with
    | nil => simp [leadsWith]
    | cons c cs =>
      by_cases hc : c = '/'
      · subst hc
        simp [leadsWith, List.takeWhile_cons]
      · simp [leadsWith, List.takeWhile_cons, hc, Ne.symm hc]
  | cons a o' ih =>
    have ha : a ≠ '/' := fun h => ho (h ▸ List.mem_cons_self a o')
    have ho' : '/' ∉ o' := fun h => ho (List.mem_cons_of_mem a h)
    cases ld with
    | nil => simp [leadsWith]
    | cons c cs =>
      rw [List.cons_append]
      show (a = c && leadsWith (o' ++ ['/']) cs) = true ↔ _
      by_cases hac : a = c
      · subst hac
        rw [show ((a = a : Bool) && leadsWith (o' ++ ['/']) cs) =
          leadsWith (o' ++ ['/']) cs by simp]
        rw [ih ho' cs]
        rw [List.takeWhile_cons]
        rw [show (!decide (a = '/')) = true by simp [ha], if_pos rfl]
        constructor
        · rintro ⟨h1, h2⟩
          refine ⟨?_, by rw [h2]⟩
          simp only [List.contains_cons, Bool.or_eq_true, beq_iff_eq]
          exact Or.inr (by simpa using h1)
        · rintro ⟨h1, h2⟩
          refine ⟨?_, by injection h2⟩
          simp only [List.contains_cons, Bool.or_eq_true, beq_iff_eq] at h1
          rcases h1 with h1 | h1
          · exact absurd h1.symm ha
          · exact h1
      · rw [show ((a = c : Bool) && leadsWith (o' ++ ['/']) cs) = false by simp [hac]]
        constructor
        · intro h
          cases h
        · rintro ⟨h1, h2⟩
          exfalso
          by_cases hc : c = '/'
          · subst hc
            rw [List.takeWhile_cons] at h2
            simp only [decide_True, Bool.not_true, Bool.false_eq_true, if_false] at h2
            exact List.cons_ne_nil a o' h2.symm
          · rw [List.takeWhile_cons] at h2
            rw [show (!decide (c = '/')) = true by simp [hc], if_pos rfl] at h2
            rw [List.cons.injEq] at h2
            exact hac h2.1.symm

theorem memAddSet (l : List String) (s x : String) :
    x ∈ addSet l s ↔ x ∈ l ∨ x = s := by
  unfold addSet
  split_ifs with h
  · constructor
    · exact Or.inl
    · intro hx
      rcases hx with hx | hx
      · exact hx
      · rw [hx]
        simpa using h
  · simp

/-- Elements of a fold whose step only ever adds values satisfying a
predicate either satisfy the predicate or were in the accumulator. -/
theorem memFoldOfStep {α : Type} (P : String → Prop) (f : List String → α → List String)
    (hf : ∀ acc d x, x ∈ f acc d → x ∈ acc ∨ P x) (L : List α) :
    ∀ (acc : List String) (s : String), s ∈ L.foldl f acc → s ∈ acc ∨ P s := by
  induction L with
  | nil => intro acc s h; exact Or.inl h
  | cons d L' ih =>
    intro acc s h
    rcases ih (f acc d) s h with h1 | h1
    · exact hf acc d s h1
    · exact Or.inr h1

/-- Every identifier accumulated by the folds of `extractDependencies`
starts with `organization ++ "/"`. -/
theorem extractDependenciesScoped (m : ComposerJson) (organization : String)
    (s : String) (hs : s ∈ extractDependencies m organization) :
    startsWithStr (organization ++ "/") s = true := by
  have hpre : ∀ t : String, startsWithStr (organization ++ "/")
      (organization ++ "/" ++ t) = true := by
    intro t
    unfold startsWithStr
    have hgen : ∀ o l : List Char, leadsWith o (o ++ l) = true := by
      intro o
      induction o with
      | nil => intro l; rfl
      | cons a o' ih => intro l; simp [leadsWith, ih]
    show leadsWith (organization ++ "/").data ((organization ++ "/") ++ t).data = true
    rw [show ((organization ++ "/") ++ t).data =
      (organization ++ "/").data ++ t.data from rfl]
    exact hgen _ _
  unfold extractDependencies at hs
  have step2 : ∀ (acc : List String) (repo : Option String) (x : String),
      x ∈ (fun deps (repo : Option String) => match repo with
        | none => deps
        | some u =>
          let url := lowerStr u
          if hasSubStr "github.com" url &&
              (hasSubStr ("/" ++ lowerStr organization ++ "/") url ||
                hasSubStr ("/" ++ organization ++ "/") url) then
            match githubRepoCapture url.data with
            | some repoName => addSet deps (organization ++ "/" ++ lowerStr repoName)
            | none => deps
          else deps) acc repo →
      x ∈ acc ∨ startsWithStr (organization ++ "/") x = true := by
    intro acc repo x hx
    cases repo with
    | none => exact Or.inl hx
    | some u =>
      dsimp only at hx
      split_ifs at hx with hcond
      · rcases hcap : githubRepoCapture (lowerStr u).data with _ | cap
        · rw [hcap] at hx
          exact Or.inl hx
        · rw [hcap] at hx
          rcases (memAddSet _ _ _).mp hx with h1 | h1
          · exact Or.inl h1
          · right
            rw [h1]
            exact hpre _
      · exact Or.inl hx
  rcases memFoldOfStep _ _ step2 m.repositories _ s hs with h1 | h1
  · have step1 : ∀ (acc : List String) (dep : String) (x : String),
        x ∈ (fun deps dep =>
          if startsWithStr (lowerStr organization ++ "/") (lowerStr dep) then
            addSet deps (normalizeRepoName dep organization)
          else deps) acc dep →
        x ∈ acc ∨ startsWithStr (organization ++ "/") x = true := by
      intro acc dep x hx
      dsimp only at hx
      split_ifs at hx with hcond
      · rcases (memAddSet _ _ _).mp hx with h2 | h2
        · exact Or.inl h2
        · right
          rw [h2]
          unfold normalizeRepoName
          exact hpre _
      · exact Or.inl hx
    rcases memFoldOfStep _ _ step1 (mergedDepNames m) [] s h1 with h2 | h2
    · cases h2
    · exact h2
  · exact h1

/-! ## Claim C8 -/

/-- C8: `extractDependencies` returns exactly what the claim describes:
(i) it agrees with the claim-side classifier (organization-prefix
matching phrased as "the part before the first `/` case-insensitively
equals the organization") whenever the organization name is slash-free;
(ii) on the claim's own example — organization "Org", dependencies
`{"Org/a": "^1.0", "other/b": "^2.0"}` — the result is exactly
`{"Org/a"}`; and (iii) every returned identifier is organization-scoped
(starts with `organization ++ "/"`), so a dependency outside the
organization is never included. -/
theorem C8_theorem :
    (∀ (m : ComposerJson) (organization : String),
      '/' ∉ (lowerStr organization).data →
      extractDependencies m organization = classifySpecSide m organization) ∧
    (extractDependencies
        ⟨some "Org/x", none, [("Org/a", "^1.0"), ("other/b", "^2.0")], [], []⟩ "Org" =
      ["Org/a"]) ∧
    (∀ (m : ComposerJson) (organization s : String),
      s ∈ extractDependencies m organization →
      startsWithStr (organization ++ "/") s = true) := by
  refine ⟨?_, by decide, extractDependenciesScoped⟩
  intro m organization ho
  have hcond : ∀ dep : String,
      startsWithStr (lowerStr organization ++ "/") (lowerStr dep) =
      ((lowerStr dep).data.contains '/' &&
        decide ((lowerStr dep).data.takeWhile (fun c => !(c = '/')) =
          (lowerStr organization).data)) := by
    intro dep
    have hlift : startsWithStr (lowerStr organization ++ "/") (lowerStr dep) =
        leadsWith ((lowerStr organization).data ++ ['/']) (lowerStr dep).data := by
      unfold startsWithStr
      rw [show (lowerStr organization ++ "/").data =
        (lowerStr organization).data ++ ['/'] from rfl]
    have hiff := leadsWithSlashIff (lowerStr organization).data ho (lowerStr dep).data
    rw [hlift]
    rcases hlhs : leadsWith ((lowerStr organization).data ++ ['/']) (lowerStr dep).data
        with _ | _
    · rcases hc : (lowerStr dep).data.contains '/' with _ | _
      · simp
      · rcases ht : decide ((lowerStr dep).data.takeWhile (fun c => !(c = '/')) =
            (lowerStr organization).data) with _ | _
        · simp
        · exfalso
          have h2 := hiff.mpr ⟨hc, of_decide_eq_true ht⟩
          rw [hlhs] at h2
          cases h2
    · obtain ⟨h1, h2⟩ := hiff.mp hlhs
      rw [h1, decide_eq_true h2]
      rfl
  unfold extractDependencies classifySpecSide
  simp only [hcond]

/-- C8, witness: the refinement component of the theorem instantiated
at the claim's example manifest and organization. -/
theorem C8_witness :
    '/' ∉ (lowerStr "Org").data ∧
    extractDependencies
        ⟨some "Org/x", none, [("Org/a", "^1.0"), ("other/b", "^2.0")], [], []⟩ "Org" =
      classifySpecSide
        ⟨some "Org/x", none, [("Org/a", "^1.0"), ("other/b", "^2.0")], [], []⟩ "Org" :=
  ⟨by decide, C8_theorem.1 _ "Org" (by decide)⟩

/-! ## GraphBuilder: `fetchDependencies` (dependencySlice.ts)

The asynchronous orchestration is embedded by its sequential data flow
(the source awaits every call in a single logical thread; the
fire-and-forget `deps.forEach(async ...)` is modelled as completing in
order before the next manifest, which is the source's intended
sequencing).  Network calls are fields of a `World` record:
`Except.error` models a request that throws where the source catches
per-item, a `Bool` models top-level client construction success. -/

/-- A graph node as built by `fetchDependencies` (the JS object's
fields; `none` models a field the object was created without). -/
structure Node where
  id : String
  name : Option String
  version : String
  color : String
  isMonorepo : Option Bool
  monorepoName : Option String
  composerFiles : List String
  defaultBranch : Option String
deriving DecidableEq, Repr

/-- A graph edge (`links` entry): source id, target id, version. -/
structure Link where
  source : String
  target : String
  version : String
deriving DecidableEq, Repr

/-- `graphData`. -/
structure GraphData where
  nodes : List Node
  links : List Link
deriving DecidableEq, Repr

/-- A selected-repository entry as read from the store
(`repositories.filter(repo => repo.selected)`). -/
structure RepoRef where
  name : String
  defaultBranch : String
  selected : Bool
deriving DecidableEq, Repr

/-- The abstract environment of one `fetchDependencies` run: the
organization and repository list from the store, whether the client
construction (and anything before the repository loop) succeeds, and
the outcome of each network fetch.  `composerFiles` models
`findComposerFiles` (which catches internally and yields `[]`),
`manifestAt` models the `getContent` + decode + `JSON.parse` of one
manifest (whose failure the inner `try`/`catch` absorbs), `lockAt`
models `getComposerLock` (internal catch, `null` on failure), `tags`
models the `listTags` page source of `getLatestTag`, keyed by the
repository name passed to it. -/
structure World where
  organization : String
  repos : List RepoRef
  clientOk : Bool
  composerFiles : String → List String
  manifestAt : String → String → Except Unit ComposerJson
  lockAt : String → String → Option ComposerLock
  tags : String → Except Unit (List (List String))

/-- The mutable collections of one run: `nodes` (a `Map` in insertion
order), `links`, `processedDeps`, `versionMap`, `packageMap`. -/
structure BuildState where
  nodes : List Node
  links : List Link
  processedDeps : List String
  versionMap : List (String × String)
  packageMap : List (String × String)
deriving DecidableEq, Repr

/-- `nodes.has(id)`. -/
def nodesHas (nodes : List Node) (id : String) : Bool :=
  nodes.any (fun n => n.id = id)

/-- `nodes.set(id, node)` for an id that may already be present: an
existing entry is replaced in place, a new one appended. -/
def nodesSet (nodes : List Node) (n : Node) : List Node :=
  if nodesHas nodes n.id then
    nodes.map (fun m => if m.id = n.id then n else m)
  else nodes ++ [n]

/-- The `else` branch at the manifest-node `Map` hit: append the
composer path to the existing node's `composerFiles`
(`[...(existingNode.composerFiles || []), composerPath]`), leave every
other field as it is. -/
def appendComposerFile (nodes : List Node) (id path : String) : List Node :=
  nodes.map (fun m =>
    if m.id = id then { m with composerFiles := m.composerFiles ++ [path] } else m)

/-- Lines 162-173 of dependencySlice.ts: create the dependency node on
first sight (green, no monorepo fields, version from the dependency
repository's latest tag, else the lock map, else "dev-main"). -/
def depNodeStage (w : World) (s : BuildState) (normalizedDep depId : String) : BuildState :=
  if nodesHas s.nodes depId then s
  else
    let depLatestTag :=
      match chunkGet1 normalizedDep with
      | some depRepo => getLatestTagRun (w.tags depRepo)
      | none => none
    let version :=
      ((jsStr depLatestTag).or (jsStr (assocGet s.versionMap normalizedDep))).getD "dev-main"
    { s with nodes := s.nodes ++
        [{ id := depId, name := chunkGet1 normalizedDep, version := version,
           color := "#059669", isMonorepo := none, monorepoName := none,
           composerFiles := [], defaultBranch := none }] }

/-- Lines 175-188 of dependencySlice.ts: add the edge only when the
`(source, target)` key is new; the version is the lock-map entry, else
the manifest's require entry, else its require-dev entry, else
"dev-main". -/
def linkStage (mj : ComposerJson) (packageId depId normalizedDep dep : String)
    (s1 : BuildState) : BuildState :=
  let linkKey := packageId ++ "-" ++ depId
  if s1.processedDeps.contains linkKey then s1
  else
    let version :=
      ((jsStr (assocGet s1.versionMap normalizedDep)).or
        ((jsStr (assocGet mj.require dep)).or
          (jsStr (assocGet mj.requireDev dep)))).getD "dev-main"
    { s1 with
      links := s1.links ++ [{ source := packageId, target := depId, version := version }],
      processedDeps := s1.processedDeps ++ [linkKey] }

/-- Lines 158-189 of dependencySlice.ts: one iteration of the second
`deps.forEach` — dependency-node creation on first sight, then edge
creation guarded by the `processedDeps` key. -/
def processDep (w : World) (mj : ComposerJson) (packageId : String)
    (s : BuildState) (dep : String) : BuildState :=
  let normalizedDep := lowerStr dep
  let depId := (jsStr (assocGet s.packageMap normalizedDep)).getD normalizedDep
  linkStage mj packageId depId normalizedDep dep (depNodeStage w s normalizedDep depId)

/-- Lines 93-194 of dependencySlice.ts: process one composer file of a
repository — fetch and decode the manifest (failures absorbed), skip
when the name is missing or empty, record the package id, harvest lock
versions, create or extend the package node, then walk the extracted
dependencies. -/
def processManifest (w : World) (repo : RepoRef) (latestTag : Option String)
    (s : BuildState) (composerPath : String) : BuildState :=
  match w.manifestAt repo.name composerPath with
  | .error _ => s
  | .ok mj =>
    let deps := extractDependencies mj w.organization
    let composerLock := w.lockAt repo.name composerPath
    match jsStr (mj.name.map lowerStr) with
    | none => s
    | some packageName =>
      let isMonorepo : Bool := composerPath ≠ "composer.json"
      let monorepoName := if isMonorepo then some repo.name else none
      let packageId :=
        getPackageId (lowerStr (w.organization ++ "/" ++ repo.name)) packageName
      let packageMap1 := assocSet s.packageMap packageName packageId
      let versionMap1 := deps.foldl (fun vm dep =>
        let normalizedDep := lowerStr dep
        match composerLock with
        | none => vm
        | some lk =>
          match (lk.packages ++ lk.packagesDev).find?
              (fun p => lowerStr p.1 = normalizedDep) with
          | some p => assocSet vm normalizedDep p.2
          | none => vm) s.versionMap
      let nodes1 :=
        if nodesHas s.nodes packageId then appendComposerFile s.nodes packageId composerPath
        else s.nodes ++
          [{ id := packageId, name := chunkGet1 packageName,
             version := ((jsStr latestTag).or (jsStr mj.version)).getD "dev-main",
             color := if isMonorepo then "#9333ea" else "#2563eb",
             isMonorepo := some isMonorepo, monorepoName := monorepoName,
             composerFiles := [composerPath], defaultBranch := some repo.defaultBranch }]
      let s2 : BuildState :=
        { nodes := nodes1, links := s.links, processedDeps := s.processedDeps,
          versionMap := versionMap1, packageMap := packageMap1 }
      deps.foldl (processDep w mj packageId) s2

/-- One iteration of the outer repository loop: locate the composer
files, fetch the repository's latest tag, then process each manifest
path in order.  (The per-repository `progress` snapshot only feeds the
UI and is overwritten before the run ends, so it is not part of the
threaded state.) -/
def processRepo (w : World) (s : BuildState) (repo : RepoRef) : BuildState :=
  let files := w.composerFiles repo.name
  let latestTag := getLatestTagRun (w.tags repo.name)
  files.foldl (processManifest w repo latestTag) s

/-- The slice state fields `fetchDependencies` writes on exit. -/
structure DependencyResult where
  graphData : GraphData
  error : Option String
  isLoading : Bool
  hasAttemptedFetch : Bool
deriving DecidableEq, Repr

/-- The message of the top-level `catch`. -/
def topLevelErrorMsg : String :=
  "Failed to fetch dependencies. Please check your token and organization."

/-- The empty-selection message. -/
def selectRepoMsg : String := "Please select at least one repository"

/-- The distinguished empty-result message. -/
def noDepsMsg : String := "No internal dependencies found between projects."

/-- `fetchDependencies` (dependencySlice.ts): `prior` carries the slice
state at call time (the empty-selection early return only sets `error`,
keeping the prior graph and flags). -/
def runFetch (prior : DependencyResult) (w : World) : DependencyResult :=
  let selectedRepos := w.repos.filter (fun r => r.selected)
  if selectedRepos.isEmpty then
    { prior with error := some selectRepoMsg }
  else if !w.clientOk then
    { graphData := ⟨[], []⟩, error := some topLevelErrorMsg,
      isLoading := false, hasAttemptedFetch := true }
  else
    let final := selectedRepos.foldl (processRepo w)
      ⟨[], [], [], [], []⟩
    if final.nodes.isEmpty then
      { graphData := ⟨[], []⟩, error := some noDepsMsg,
        isLoading := false, hasAttemptedFetch := true }
    else
      { graphData := ⟨final.nodes, final.links⟩, error := none,
        isLoading := false, hasAttemptedFetch := true }

/-! ## Concrete worlds for the graph-builder claims -/

/-- The slice state right after the initial `set` of a run (empty graph,
no error). -/
def prior0 : DependencyResult := ⟨⟨[], []⟩, none, false, false⟩

/-- A world with one repository `r` whose only manifest lives at
`sub/composer.json` and declares the single package name `org/p`. -/
def w1 : World :=
  { organization := "org"
    repos := [⟨"r", "main", true⟩]
    clientOk := true
    composerFiles := fun n => if n = "r" then ["sub/composer.json"] else []
    manifestAt := fun n p =>
      if n = "r" && p = "sub/composer.json" then .ok ⟨some "org/p", none, [], [], []⟩
      else .error ()
    lockAt := fun _ _ => none
    tags := fun _ => .ok [] }

/-- Repositories `a` (requires `org/b` at `"^1.0"`, no lock file) and
`b` (owns package `org/b`, tagged `v2.0.0`), processed in that order. -/
def w2 : World :=
  { organization := "org"
    repos := [⟨"a", "main", true⟩, ⟨"b", "main", true⟩]
    clientOk := true
    composerFiles := fun n =>
      if n = "a" then ["composer.json"]
      else if n = "b" then ["composer.json"] else []
    manifestAt := fun n p =>
      if n = "a" && p = "composer.json" then
        .ok ⟨some "org/a", none, [("org/b", "^1.0")], [], []⟩
      else if n = "b" && p = "composer.json" then .ok ⟨some "org/b", none, [], [], []⟩
      else .error ()
    lockAt := fun _ _ => none
    tags := fun n => if n = "b" then .ok [["v2.0.0"]] else .ok [] }

/-- Like `w2` but with an uppercase organization `Org`, an uppercase
dependency spelling, and no tags anywhere. -/
def w6 : World :=
  { organization := "Org"
    repos := [⟨"a", "main", true⟩]
    clientOk := true
    composerFiles := fun n => if n = "a" then ["composer.json"] else []
    manifestAt := fun n p =>
      if n = "a" && p = "composer.json" then
        .ok ⟨some "Org/a", none, [("Org/b", "^1.0")], [], []⟩
      else .error ()
    lockAt := fun _ _ => none
    tags := fun _ => .ok [] }

/-- Modelled from the spec's inventory notion (spec section 4.6 pass 1):
the distinct package names declared by a repository's manifests. -/
def declaredNames (w : World) (repoName : String) : List String :=
  dedupFirst ((w.composerFiles repoName).filterMap (fun p =>
    match w.manifestAt repoName p with
    | .ok m => m.name
    | .error _ => none))

/-! ## Claim C1 -/

/-- C1, counterexample: in `w1` the repository `r` declares exactly one
distinct package name, yet the node built from its manifest carries the
monorepo category (purple, `isMonorepo: true`), because the source
classifies by manifest path (`composerPath !== 'composer.json'`), not
by the size of the declared-name set. -/
theorem C1_counterexample :
    ((runFetch prior0 w1).graphData.nodes.map (fun n => (n.id, n.isMonorepo, n.color))) =
      [("org/r>org/p", some true, "#9333ea")] ∧
    (declaredNames w1 "r").length = 1 := by decide

/-! ## Claim C2 -/

/-- C2, counterexample: in `w2`, repository `a` requires `org/b` with
raw constraint `"^1.0"`, no lock file supplies a version, and `org/b`'s
own repository has latest tag `"2.0.0"`; under the claim's preference
order the edge should carry `"2.0.0"`, but the built edge carries the
raw constraint `"^1.0"` — the edge-version resolution never consults
the dependency repository's latest tag (only the dependency node's own
version field does). -/
theorem C2_counterexample :
    (runFetch prior0 w2).graphData.links = [⟨"org/a>org/a", "org/b", "^1.0"⟩] ∧
    getLatestTagRun (w2.tags "b") = some "2.0.0" ∧
    ((runFetch prior0 w2).graphData.nodes.map (fun n => (n.id, n.version))) =
      [("org/a>org/a", "dev-main"), ("org/b", "2.0.0"), ("org/b>org/b", "2.0.0")] ∧
    "^1.0" ≠ "2.0.0" := by decide

/-! ## Claim C6 -/

/-- C6, counterexample: in `w6` (organization "Org") the run creates a
dependency-first node whose id is the bare normalized identifier
`"org/b"` — no separator, not the composite format — and the manifest
node's id lowercases the organization as well
(`"org/a>org/a"`, not `"Org/a>org/a"`).  Two repositories declaring the
same package name can therefore collide with a dependency-first id, and
the claimed id format does not hold of every node. -/
theorem C6_counterexample :
    ((runFetch prior0 w6).graphData.nodes.map (fun n => n.id)) = ["org/a>org/a", "org/b"] ∧
    ("org/b".data.contains '>') = false ∧
    "org/a>org/a" ≠ getPackageId "Org/a" "org/a" := by decide

/-! ## Run invariants -/

/-- The dependencies a manifest contributes are free of the id
separator `'>'` (true of every real composer package name). -/
def manifestDepsOkB (w : World) (r p : String) : Bool :=
  match w.manifestAt r p with
  | .ok mj => (extractDependencies mj w.organization).all
      (fun d => !(lowerStr d).data.contains '>')
  | .error _ => true

/-- Well-formed world: no repository's lowered `organization/name`
prefix holds the separator `'>'`, and no manifest contributes a
dependency identifier holding it. -/
def worldWFB (w : World) : Bool :=
  w.repos.all (fun r =>
    !(lowerStr (w.organization ++ "/" ++ r.name)).data.contains '>' &&
    (w.composerFiles r.name).all (fun p => manifestDepsOkB w r.name p))

/-- Shape invariant of a node: dependency-first nodes (no `isMonorepo`
field) have no composer files and a separator-free id; manifest nodes
have a composite id built from a selected repository, and their
monorepo flag is fixed by the first composer path. -/
def NodeInv (w : World) (n : Node) : Prop :=
  (n.isMonorepo = none → n.composerFiles = [] ∧ n.id.data.contains '>' = false) ∧
  (∀ b, n.isMonorepo = some b →
    (∃ r, (r ∈ w.repos ∧ r.selected = true) ∧ ∃ nm,
        n.id = getPackageId (lowerStr (w.organization ++ "/" ++ r.name)) nm) ∧
    (∃ p rest, n.composerFiles = p :: rest ∧ b = decide (p ≠ "composer.json")))

/-- Invariant threaded through the build: every node satisfies
`NodeInv`, and every `packageMap` value is a separator-bearing id whose
node exists. -/
def StateInv (w : World) (s : BuildState) : Prop :=
  (∀ n ∈ s.nodes, NodeInv w n) ∧
  (∀ kv ∈ s.packageMap, kv.2.data.contains '>' = true ∧ nodesHas s.nodes kv.2 = true)

theorem memAssocSet (l : List (String × String)) (k v : String) (x : String × String)
    (hx : x ∈ assocSet l k v) : x = (k, v) ∨ x ∈ l := by
  unfold assocSet at hx
  split_ifs at hx with h
  · rcases List.mem_map.mp hx with ⟨y, hy, hxy⟩
    by_cases hk : y.1 = k
    · rw [if_pos hk] at hxy
      exact Or.inl hxy.symm
    · rw [if_neg hk] at hxy
      exact Or.inr (hxy ▸ hy)
  · rcases List.mem_append.mp hx with h1 | h1
    · exact Or.inr h1
    · exact Or.inl (List.mem_singleton.mp h1)

theorem nodesHasAppendMono (nodes : List Node) (n : Node) (id : String)
    (h : nodesHas nodes id = true) : nodesHas (nodes ++ [n]) id = true := by
  unfold nodesHas at h ⊢
  rw [List.any_append, h]
  rfl

theorem anyCongr {α : Type} (l : List α) (p q : α → Bool) (h : ∀ x ∈ l, p x = q x) :
    l.any p = l.any q := by
  induction l with
  | nil => rfl
  | cons a l2 ih =>
    simp only [List.any_cons, h a (List.mem_cons_self a l2),
      ih (fun x hx => h x (List.mem_cons_of_mem a hx))]

theorem nodesHasAppendComposer (nodes : List Node) (id0 p id : String) :
    nodesHas (appendComposerFile nodes id0 p) id = nodesHas nodes id := by
  unfold nodesHas appendComposerFile
  rw [List.any_map]
  apply anyCongr
  intro m _
  by_cases h : m.id = id0
  · simp [Function.comp, h]
  · simp [Function.comp, h]

theorem getPackageIdSep (a b : String) :
    (getPackageId a b).data.contains '>' = true := by
  unfold getPackageId
  have : (a ++ ">" ++ b).data = a.data ++ '>' :: b.data := by
    show (a.data ++ ">".data) ++ b.data = a.data ++ '>' :: b.data
    rw [List.append_assoc]
    rfl
  rw [this]
  simp [List.contains_cons]

theorem containsNeEmpty (v : String) (h : v.data.contains '>' = true) : v ≠ "" := by
  intro hv
  rw [hv] at h
  cases h

/-- Fold preservation with membership of the element available. -/
theorem foldlInv {α β : Type} (P : β → Prop) (f : β → α → β) (L : List α)
    (hf : ∀ s a, a ∈ L → P s → P (f s a)) :
    ∀ s, P s → P (L.foldl f s) := by
  induction L with
  | nil => intro s hs; exact hs
  | cons a L' ih =>
    intro s hs
    exact ih (fun s' a' ha' hs' => hf s' a' (List.mem_cons_of_mem a ha') hs')
      (f s a) (hf s a (List.mem_cons_self a L') hs)

theorem linkStageFrame (mj : ComposerJson) (packageId depId normalizedDep dep : String)
    (s1 : BuildState) :
    (linkStage mj packageId depId normalizedDep dep s1).nodes = s1.nodes ∧
    (linkStage mj packageId depId normalizedDep dep s1).packageMap = s1.packageMap ∧
    (linkStage mj packageId depId normalizedDep dep s1).versionMap = s1.versionMap := by
  unfold linkStage
  dsimp only
  split_ifs
  · exact ⟨rfl, rfl, rfl⟩
  · exact ⟨rfl, rfl, rfl⟩

theorem stateInvOfEq (w : World) (s1 s2 : BuildState) (hn : s2.nodes = s1.nodes)
    (hp : s2.packageMap = s1.packageMap) (h : StateInv w s1) : StateInv w s2 := by
  obtain ⟨h1, h2⟩ := h
  constructor
  · rw [hn]
    exact h1
  · intro kv hkv
    rw [hp] at hkv
    rw [hn]
    exact h2 kv hkv

theorem depNodeStageInv (w : World) (s : BuildState) (normalizedDep depId : String)
    (hid : depId.data.contains '>' = false ∨ nodesHas s.nodes depId = true)
    (hs : StateInv w s) : StateInv w (depNodeStage w s normalizedDep depId) := by
  obtain ⟨hnodes, hpm⟩ := hs
  unfold depNodeStage
  split_ifs with hhas
  · exact ⟨hnodes, hpm⟩
  · rcases hid with hid | hid
    · constructor
      · intro n hn
        rcases List.mem_append.mp hn with h1 | h1
        · exact hnodes n h1
        · rw [List.mem_singleton.mp h1]
          constructor
          · intro _
            exact ⟨rfl, hid⟩
          · intro b hb
            cases hb
      · intro kv hkv
        exact ⟨(hpm kv hkv).1, nodesHasAppendMono _ _ _ (hpm kv hkv).2⟩
    · rw [hid] at hhas
      cases hhas rfl

/-- The dependency id resolved by `processDep` either is separator-free
or already names an existing node. -/
theorem depIdGood (s : BuildState) (normalizedDep : String)
    (hdep : normalizedDep.data.contains '>' = false)
    (hpm : ∀ kv ∈ s.packageMap, kv.2.data.contains '>' = true ∧
      nodesHas s.nodes kv.2 = true) :
    ((jsStr (assocGet s.packageMap normalizedDep)).getD normalizedDep).data.contains '>'
        = false ∨
    nodesHas s.nodes ((jsStr (assocGet s.packageMap normalizedDep)).getD normalizedDep)
        = true := by
  rcases hget : assocGet s.packageMap normalizedDep with _ | v
  · left
    exact hdep
  · have hv : v.data.contains '>' = true ∧ nodesHas s.nodes v = true := by
      unfold assocGet at hget
      rcases hfind : s.packageMap.find? (fun p => p.1 = normalizedDep) with _ | pr
      · rw [hfind] at hget
        cases hget
      · rw [hfind] at hget
        have hmem := List.mem_of_find?_eq_some hfind
        have hpr : pr.2 = v := by injection hget
        rw [← hpr]
        exact hpm pr hmem
    right
    have hjs : jsStr (some v) = some v := by
      simp [jsStr, containsNeEmpty v hv.1]
    rw [hjs]
    exact hv.2

theorem processDepInv (w : World) (mj : ComposerJson) (packageId : String)
    (s : BuildState) (dep : String)
    (hdep : (lowerStr dep).data.contains '>' = false)
    (hs : StateInv w s) : StateInv w (processDep w mj packageId s dep) := by
  unfold processDep
  dsimp only
  have h1 := depNodeStageInv w s (lowerStr dep)
    ((jsStr (assocGet s.packageMap (lowerStr dep))).getD (lowerStr dep))
    (depIdGood s (lowerStr dep) hdep hs.2) hs
  have hframe := linkStageFrame mj packageId
    ((jsStr (assocGet s.packageMap (lowerStr dep))).getD (lowerStr dep))
    (lowerStr dep) dep
    (depNodeStage w s (lowerStr dep)
      ((jsStr (assocGet s.packageMap (lowerStr dep))).getD (lowerStr dep)))
  exact stateInvOfEq w _ _ hframe.1 hframe.2.1 h1

theorem nodesHasAppendSelf (nodes : List Node) (n : Node) :
    nodesHas (nodes ++ [n]) n.id = true := by
  unfold nodesHas
  rw [List.any_append]
  simp [List.any_cons]

theorem processManifestInv (w : World) (repo : RepoRef) (latestTag : Option String)
    (s : BuildState) (composerPath : String)
    (hrepo : repo ∈ w.repos) (hsel : repo.selected = true)
    (hwf : worldWFB w = true) (hp : composerPath ∈ w.composerFiles repo.name)
    (hs : StateInv w s) :
    StateInv w (processManifest w repo latestTag s composerPath) := by
  have hwf2 := (List.all_eq_true.mp hwf) repo hrepo
  rw [Bool.and_eq_true] at hwf2
  have hdeps := (List.all_eq_true.mp hwf2.2) composerPath hp
  unfold processManifest
  rcases hman : w.manifestAt repo.name composerPath with _ | mj
  · exact hs
  · dsimp only
    rcases hname : jsStr (mj.name.map lowerStr) with _ | packageName
    · exact hs
    · have hdepsOk : ∀ d ∈ extractDependencies mj w.organization,
          (lowerStr d).data.contains '>' = false := by
        unfold manifestDepsOkB at hdeps
        rw [hman] at hdeps
        intro d hd
        have := (List.all_eq_true.mp hdeps) d hd
        simpa using this
      obtain ⟨hnodes, hpm⟩ := hs
      set packageId :=
        getPackageId (lowerStr (w.organization ++ "/" ++ repo.name)) packageName with hpid
      have hpidSep : packageId.data.contains '>' = true := getPackageIdSep _ _
      have hinv2 : StateInv w
          { nodes :=
              (if nodesHas s.nodes packageId then
                appendComposerFile s.nodes packageId composerPath
              else s.nodes ++
               [{ id := packageId, name := chunkGet1 packageName,
                  version := ((jsStr latestTag).or (jsStr mj.version)).getD "dev-main",
                  color := if (composerPath ≠ "composer.json" : Bool) then "#9333ea"
                    else "#2563eb",
                  isMonorepo := some (composerPath ≠ "composer.json" : Bool),
                  monorepoName := if (composerPath ≠ "composer.json" : Bool) then
                    some repo.name else none,
                  composerFiles := [composerPath],
                  defaultBranch := some repo.defaultBranch }]),
            links := s.links, processedDeps := s.processedDeps,
            versionMap := (extractDependencies mj w.organization).foldl (fun vm dep =>
              let normalizedDep := lowerStr dep
              match w.lockAt repo.name composerPath with
              | none => vm
              | some lk =>
                match (lk.packages ++ lk.packagesDev).find?
                    (fun p => lowerStr p.1 = normalizedDep) with
                | some p => assocSet vm normalizedDep p.2
                | none => vm) s.versionMap,
            packageMap := assocSet s.packageMap packageName packageId } := by
        constructor
        · intro n hn
          dsimp only at hn
          by_cases hhas : nodesHas s.nodes packageId = true
          · rw [if_pos hhas] at hn
            rcases List.mem_map.mp hn with ⟨m, hm, hfm⟩
            have hminv := hnodes m hm
            by_cases hmid : m.id = packageId
            · rw [if_pos hmid] at hfm
              have hmono : m.isMonorepo ≠ none := by
                intro hno
                have := (hminv.1 hno).2
                rw [hmid, hpidSep] at this
                cases this
              rcases hmo : m.isMonorepo with _ | b
              · exact absurd hmo hmono
              · obtain ⟨hr, p0, rest, hcf, hb⟩ := hminv.2 b hmo
                rw [← hfm]
                constructor
                · intro hcontra
                  exfalso
                  rw [show ({ m with composerFiles := m.composerFiles ++ [composerPath]
                      } : Node).isMonorepo = m.isMonorepo from rfl, hmo] at hcontra
                  cases hcontra
                · intro b2 hb2
                  rw [show ({ m with composerFiles := m.composerFiles ++ [composerPath]
                      } : Node).isMonorepo = m.isMonorepo from rfl, hmo] at hb2
                  have hbb : b2 = b := by injection hb2 with h; exact h.symm
                  subst hbb
                  refine ⟨hr, p0, rest ++ [composerPath], ?_, hb⟩
                  rw [show ({ m with composerFiles := m.composerFiles ++ [composerPath]
                      } : Node).composerFiles = m.composerFiles ++ [composerPath] from rfl,
                    hcf, List.cons_append]
            · rw [if_neg hmid] at hfm
              rw [← hfm]
              exact hminv
          · rw [if_neg hhas] at hn
            rcases List.mem_append.mp hn with h1 | h1
            · exact hnodes n h1
            · rw [List.mem_singleton.mp h1]
              constructor
              · intro hcontra
                cases hcontra
              · intro b hb
                have hbb : b = (composerPath ≠ "composer.json" : Bool) := by
                  injection hb with h
                  exact h.symm
                subst hbb
                exact ⟨⟨repo, ⟨hrepo, hsel⟩, packageName, rfl⟩,
                  composerPath, [], rfl, rfl⟩
        · intro kv hkv
          dsimp only at hkv ⊢
          rcases memAssocSet _ _ _ _ hkv with h1 | h1
          · rw [h1]
            refine ⟨hpidSep, ?_⟩
            by_cases hhas : nodesHas s.nodes packageId = true
            · rw [if_pos hhas, nodesHasAppendComposer]
              exact hhas
            · rw [if_neg hhas]
              exact nodesHasAppendSelf s.nodes _
          · refine ⟨(hpm kv h1).1, ?_⟩
            by_cases hhas : nodesHas s.nodes packageId = true
            · rw [if_pos hhas, nodesHasAppendComposer]
              exact (hpm kv h1).2
            · rw [if_neg hhas]
              exact nodesHasAppendMono _ _ _ (hpm kv h1).2
      exact foldlInv (StateInv w) (processDep w mj packageId)
        (extractDependencies mj w.organization)
        (fun s2 dep hdep hs2 => processDepInv w mj packageId s2 dep (hdepsOk dep hdep) hs2)
        _ hinv2

theorem processRepoInv (w : World) (repo : RepoRef) (hrepo : repo ∈ w.repos)
    (hsel : repo.selected = true) (hwf : worldWFB w = true) (s : BuildState)
    (hs : StateInv w s) : StateInv w (processRepo w s repo) := by
  unfold processRepo
  exact foldlInv (StateInv w)
    (processManifest w repo (getLatestTagRun (w.tags repo.name)))
    (w.composerFiles repo.name)
    (fun s2 p hp hs2 => processManifestInv w repo _ s2 p hrepo hsel hwf hp hs2)
    s hs

/-- The invariant holds of the final build state of a run. -/
theorem buildInv (w : World) (hwf : worldWFB w = true) :
    StateInv w ((w.repos.filter (fun r => r.selected)).foldl (processRepo w)
      ⟨[], [], [], [], []⟩) := by
  apply foldlInv (StateInv w) (processRepo w) _
  · intro s r hr hs
    have hr2 := List.mem_filter.mp hr
    exact processRepoInv w r hr2.1 (by simpa using hr2.2) hwf s hs
  · constructor
    · intro n hn
      cases hn
    · intro kv hkv
      cases hkv

/-- C1 (amended): the monorepo category is path-based, not
name-count-based: in every run over a well-formed world with a
nonempty selection, a node carries `isMonorepo: true` exactly when it
was created from a manifest whose composer path (the first entry of its
`composerFiles`) is not the root `"composer.json"`.  Dependency-first
nodes never carry the flag (they have no `isMonorepo` field and no
composer files), regardless of how many package names the target
repository declares. -/
theorem C1_amended (prior : DependencyResult) (w : World)
    (hwf : worldWFB w = true)
    (hsel : w.repos.filter (fun r => r.selected) ≠ []) :
    ∀ n ∈ (runFetch prior w).graphData.nodes,
      n.isMonorepo = some true ↔
        ∃ p, n.composerFiles.head? = some p ∧ p ≠ "composer.json" := by
  intro n hn
  unfold runFetch at hn
  rw [if_neg (by simpa using hsel)] at hn
  have hinv : NodeInv w n := by
    by_cases hok : w.clientOk = true
    · rw [hok] at hn
      dsimp only at hn
      by_cases hempty : ((w.repos.filter (fun r => r.selected)).foldl (processRepo w)
          ⟨[], [], [], [], []⟩).nodes.isEmpty = true
      · rw [if_pos hempty] at hn
        cases hn
      · rw [if_neg hempty] at hn
        exact (buildInv w hwf).1 n hn
    · rw [Bool.not_eq_true] at hok
      rw [hok] at hn
      dsimp only at hn
      cases hn
  obtain ⟨hnone, hsome⟩ := hinv
  rcases hmo : n.isMonorepo with _ | b
  · obtain ⟨hcf, _⟩ := hnone hmo
    rw [hcf]
    constructor
    · intro h
      cases h
    · rintro ⟨p, hp, _⟩
      cases hp
  · obtain ⟨_, p, rest, hcf, hb⟩ := hsome b hmo
    rw [hcf]
    constructor
    · intro h
      have hbt : b = true := Option.some.inj h
      rw [hbt] at hb
      exact ⟨p, rfl, of_decide_eq_true hb.symm⟩
    · rintro ⟨q, hq, hqr⟩
      have hpq : p = q := Option.some.inj hq
      rw [hb, hpq, decide_eq_true hqr]

/-- C1, witness: in a well-formed two-manifest world the run is
classified by the amended rule. -/
theorem C1_witness :
    (worldWFB w1 = true ∧ w1.repos.filter (fun r => r.selected) ≠ []) ∧
    ∀ n ∈ (runFetch prior0 w1).graphData.nodes,
      n.isMonorepo = some true ↔
        ∃ p, n.composerFiles.head? = some p ∧ p ≠ "composer.json" :=
  ⟨⟨by decide, by decide⟩, C1_amended prior0 w1 (by decide) (by decide)⟩

/-- The decomposition of a list at a distinguished separator character
absent from both prefixes is unique. -/
theorem sepSplitUnique (a b c d : List Char) (ha : '>' ∉ a) (hc : '>' ∉ c)
    (h : a ++ '>' :: b = c ++ '>' :: d) : a = c ∧ b = d := by
  induction a generalizing c with
  | nil =>
    cases c with
    | nil =>
      rw [List.nil_append, List.nil_append] at h
      injection h with _ h2
      exact ⟨rfl, h2⟩
    | cons c0 cs =>
      rw [List.nil_append, List.cons_append] at h
      injection h with h1 _
      exact absurd (h1 ▸ List.mem_cons_self c0 cs) hc
  | cons a0 as ih =>
    cases c with
    | nil =>
      rw [List.cons_append, List.nil_append] at h
      injection h with h1 _
      exact absurd (h1.symm ▸ List.mem_cons_self a0 as) ha
    | cons c0 cs =>
      rw [List.cons_append, List.cons_append] at h
      injection h with h1 h2
      have ha2 : '>' ∉ as := fun hm => ha (List.mem_cons_of_mem a0 hm)
      have hc2 : '>' ∉ cs := fun hm => hc (List.mem_cons_of_mem c0 hm)
      obtain ⟨hac, hbd⟩ := ih cs ha2 hc2 h2
      exact ⟨by rw [h1, hac], hbd⟩

/-- `lowerStr` distributes over the `organization ++ "/" ++ name`
composite. -/
theorem lowerStrComposite (org r : String) :
    (lowerStr (org ++ "/" ++ r)).data =
      (lowerStr org).data ++ '/' :: (lowerStr r).data := by
  show ((org ++ "/" ++ r).data.map Char.toLower) = _
  rw [show (org ++ "/" ++ r).data = org.data ++ '/' :: r.data by
    show (org.data ++ "/".data) ++ r.data = org.data ++ '/' :: r.data
    rw [List.append_assoc]
    rfl]
  rw [List.map_append]
  rfl

/-- C6 (amended): every node that was created from a manifest (it
carries an `isMonorepo` field) has the composite id
`lowercase(organization ++ "/" ++ repository-name) ++ ">" ++ name` for
one of the selected repositories — note the organization is lowercased
too — and these composites are distinct for repositories with distinct
lowercased names, so same-named packages in two repositories cannot
collide; dependency-first nodes instead use the bare normalized
identifier, which holds no separator. -/
theorem C6_amended :
    (∀ (prior : DependencyResult) (w : World), worldWFB w = true →
      w.repos.filter (fun r => r.selected) ≠ [] →
      ∀ n ∈ (runFetch prior w).graphData.nodes,
        (∀ b, n.isMonorepo = some b →
          ∃ r, (r ∈ w.repos ∧ r.selected = true) ∧ ∃ nm,
            n.id = getPackageId (lowerStr (w.organization ++ "/" ++ r.name)) nm) ∧
        (n.isMonorepo = none → n.id.data.contains '>' = false)) ∧
    (∀ org r1 r2 nm1 nm2 : String,
      '>' ∉ (lowerStr (org ++ "/" ++ r1)).data →
      '>' ∉ (lowerStr (org ++ "/" ++ r2)).data →
      lowerStr r1 ≠ lowerStr r2 →
      getPackageId (lowerStr (org ++ "/" ++ r1)) nm1 ≠
        getPackageId (lowerStr (org ++ "/" ++ r2)) nm2) := by
  constructor
  · intro prior w hwf hsel n hn
    unfold runFetch at hn
    rw [if_neg (by simpa using hsel)] at hn
    have hinv : NodeInv w n := by
      by_cases hok : w.clientOk = true
      · rw [hok] at hn
        dsimp only at hn
        by_cases hempty : ((w.repos.filter (fun r => r.selected)).foldl (processRepo w)
            ⟨[], [], [], [], []⟩).nodes.isEmpty = true
        · rw [if_pos hempty] at hn
          cases hn
        · rw [if_neg hempty] at hn
          exact (buildInv w hwf).1 n hn
      · rw [Bool.not_eq_true] at hok
        rw [hok] at hn
        dsimp only at hn
        cases hn
    exact ⟨fun b hb => ((hinv.2 b hb).1), fun hno => (hinv.1 hno).2⟩
  · intro org r1 r2 nm1 nm2 h1 h2 hne heq
    unfold getPackageId at heq
    have hdata := congrArg String.data heq
    rw [show ((lowerStr (org ++ "/" ++ r1) ++ ">") ++ nm1).data =
        (lowerStr (org ++ "/" ++ r1)).data ++ '>' :: nm1.data by
      show ((lowerStr (org ++ "/" ++ r1)).data ++ ">".data) ++ nm1.data = _
      rw [List.append_assoc]
      rfl] at hdata
    rw [show ((lowerStr (org ++ "/" ++ r2) ++ ">") ++ nm2).data =
        (lowerStr (org ++ "/" ++ r2)).data ++ '>' :: nm2.data by
      show ((lowerStr (org ++ "/" ++ r2)).data ++ ">".data) ++ nm2.data = _
      rw [List.append_assoc]
      rfl] at hdata
    obtain ⟨hpre, _⟩ := sepSplitUnique _ _ _ _ h1 h2 hdata
    rw [lowerStrComposite, lowerStrComposite] at hpre
    have := List.append_cancel_left hpre
    injection this with _ htail
    exact hne (String.ext htail)

/-- C6, witness: the amended format component instantiated at the
concrete world `w2`, and the distinctness component at two concrete
repositories sharing a package name. -/
theorem C6_witness :
    ((worldWFB w2 = true ∧ w2.repos.filter (fun r => r.selected) ≠ []) ∧
      ∀ n ∈ (runFetch prior0 w2).graphData.nodes,
        (∀ b, n.isMonorepo = some b →
          ∃ r, (r ∈ w2.repos ∧ r.selected = true) ∧ ∃ nm,
            n.id = getPackageId (lowerStr (w2.organization ++ "/" ++ r.name)) nm) ∧
        (n.isMonorepo = none → n.id.data.contains '>' = false)) ∧
    getPackageId (lowerStr ("org" ++ "/" ++ "x")) "org/p" ≠
      getPackageId (lowerStr ("org" ++ "/" ++ "y")) "org/p" :=
  ⟨⟨⟨by decide, by decide⟩, C6_amended.1 prior0 w2 (by decide) (by decide)⟩,
   C6_amended.2 "org" "x" "y" "org/p" "org/p" (by decide) (by decide) (by decide)⟩

/-! ## Claim C7 -/

/-- Link-key invariant: every recorded link's `source-target` key is in
`processedDeps`, and keys are pairwise distinct along `links`. -/
def LinkInv (s : BuildState) : Prop :=
  (∀ e ∈ s.links, (e.source ++ "-" ++ e.target) ∈ s.processedDeps) ∧
  List.Pairwise (fun e e2 =>
    e.source ++ "-" ++ e.target ≠ e2.source ++ "-" ++ e2.target) s.links

theorem linkInvOfEq (s1 s2 : BuildState) (hl : s2.links = s1.links)
    (hp : s2.processedDeps = s1.processedDeps) (h : LinkInv s1) : LinkInv s2 := by
  obtain ⟨h1, h2⟩ := h
  constructor
  · rw [hl, hp]
    exact h1
  · rw [hl]
    exact h2

theorem depNodeStageFrame (w : World) (s : BuildState) (normalizedDep depId : String) :
    (depNodeStage w s normalizedDep depId).links = s.links ∧
    (depNodeStage w s normalizedDep depId).processedDeps = s.processedDeps := by
  unfold depNodeStage
  split_ifs
  · exact ⟨rfl, rfl⟩
  · exact ⟨rfl, rfl⟩

theorem linkStageLinkInv (mj : ComposerJson) (packageId depId normalizedDep dep : String)
    (s1 : BuildState) (h : LinkInv s1) :
    LinkInv (linkStage mj packageId depId normalizedDep dep s1) := by
  obtain ⟨h1, h2⟩ := h
  unfold linkStage
  dsimp only
  split_ifs with hproc
  · exact ⟨h1, h2⟩
  · constructor
    · intro e he
      rcases List.mem_append.mp he with hh | hh
      · exact List.mem_append_left _ (h1 e hh)
      · rw [List.mem_singleton.mp hh]
        exact List.mem_append_right _ (List.mem_singleton.mpr rfl)
    · rw [List.pairwise_append]
      refine ⟨h2, List.pairwise_singleton _ _, ?_⟩
      intro e he e2 he2
      rw [List.mem_singleton.mp he2]
      intro hkeq
      apply hproc
      have hmem := h1 e he
      rw [hkeq] at hmem
      simpa using hmem

theorem processDepLinkInv (w : World) (mj : ComposerJson) (packageId : String)
    (s : BuildState) (dep : String) (h : LinkInv s) :
    LinkInv (processDep w mj packageId s dep) := by
  unfold processDep
  dsimp only
  apply linkStageLinkInv
  have hframe := depNodeStageFrame w s (lowerStr dep)
    ((jsStr (assocGet s.packageMap (lowerStr dep))).getD (lowerStr dep))
  exact linkInvOfEq s _ hframe.1 hframe.2 h

theorem processManifestLinkInv (w : World) (repo : RepoRef) (latestTag : Option String)
    (s : BuildState) (composerPath : String) (h : LinkInv s) :
    LinkInv (processManifest w repo latestTag s composerPath) := by
  unfold processManifest
  rcases hman : w.manifestAt repo.name composerPath with _ | mj
  · exact h
  · dsimp only
    rcases hname : jsStr (mj.name.map lowerStr) with _ | packageName
    · exact h
    · apply foldlInv LinkInv _ _
        (fun s2 dep _ hs2 => processDepLinkInv w mj _ s2 dep hs2)
      exact linkInvOfEq s _ rfl rfl h

theorem processRepoLinkInv (w : World) (s : BuildState) (repo : RepoRef)
    (h : LinkInv s) : LinkInv (processRepo w s repo) := by
  unfold processRepo
  exact foldlInv LinkInv _ _
    (fun s2 p _ hs2 => processManifestLinkInv w repo _ s2 p hs2) s h

/-- The link-key invariant holds of the final build state of a run. -/
theorem buildLinkInv (w : World) :
    LinkInv ((w.repos.filter (fun r => r.selected)).foldl (processRepo w)
      ⟨[], [], [], [], []⟩) := by
  apply foldlInv LinkInv (processRepo w) _
    (fun s r _ hs => processRepoLinkInv w s r hs)
  exact ⟨fun e he => absurd he (List.not_mem_nil e), List.Pairwise.nil⟩

/-- C7: edge deduplication by the `source-target` key.  (i) In every
run with a nonempty selection the final edge list holds at most one
edge per (source, target) pair.  (ii) A candidate whose key is already
recorded leaves the state untouched — the later candidate is silently
dropped even if its resolved version differs.  (iii) A candidate with a
new key appends exactly one edge carrying the resolved version, and
records the key. -/
theorem C7_theorem :
    (∀ (prior : DependencyResult) (w : World),
      w.repos.filter (fun r => r.selected) ≠ [] →
      List.Pairwise (fun e e2 => ¬(e.source = e2.source ∧ e.target = e2.target))
        (runFetch prior w).graphData.links) ∧
    (∀ (mj : ComposerJson) (packageId depId normalizedDep dep : String) (s1 : BuildState),
      s1.processedDeps.contains (packageId ++ "-" ++ depId) = true →
      linkStage mj packageId depId normalizedDep dep s1 = s1) ∧
    (∀ (mj : ComposerJson) (packageId depId normalizedDep dep : String) (s1 : BuildState),
      s1.processedDeps.contains (packageId ++ "-" ++ depId) = false →
      linkStage mj packageId depId normalizedDep dep s1 =
        { s1 with
          links := s1.links ++
            [{ source := packageId,
               target := depId,
               version := ((jsStr (assocGet s1.versionMap normalizedDep)).or
                 ((jsStr (assocGet mj.require dep)).or
                   (jsStr (assocGet mj.requireDev dep)))).getD "dev-main" }],
          processedDeps := s1.processedDeps ++ [packageId ++ "-" ++ depId] }) := by
  refine ⟨?_, ?_, ?_⟩
  · intro prior w hsel
    unfold runFetch
    rw [if_neg (by simpa using hsel)]
    by_cases hok : w.clientOk = true
    · rw [hok]
      dsimp only
      by_cases hempty : ((w.repos.filter (fun r => r.selected)).foldl (processRepo w)
          ⟨[], [], [], [], []⟩).nodes.isEmpty = true
      · rw [if_pos hempty]
        exact List.Pairwise.nil
      · rw [if_neg hempty]
        exact List.Pairwise.imp
          (fun hne hpair => hne (by rw [hpair.1, hpair.2]))
          (buildLinkInv w).2
    · rw [Bool.not_eq_true] at hok
      rw [hok]
      exact List.Pairwise.nil
  · intro mj packageId depId normalizedDep dep s1 hk
    unfold linkStage
    dsimp only
    rw [if_pos hk]
  · intro mj packageId depId normalizedDep dep s1 hk
    unfold linkStage
    dsimp only
    rw [if_neg (by rw [hk]; exact Bool.false_ne_true)]

/-- C7, witness: the pairwise component at the concrete world `w2`,
and both `linkStage` components at a concrete state holding one
processed key. -/
theorem C7_witness :
    (w2.repos.filter (fun r => r.selected) ≠ [] ∧
      List.Pairwise (fun e e2 => ¬(e.source = e2.source ∧ e.target = e2.target))
        (runFetch prior0 w2).graphData.links) ∧
    (⟨[], [], ["a-b"], [("b", "9.9.9")], []⟩ : BuildState).processedDeps.contains
        ("a" ++ "-" ++ "b") = true ∧
    linkStage ⟨none, none, [], [], []⟩ "a" "b" "b" "b"
        ⟨[], [], ["a-b"], [("b", "9.9.9")], []⟩ =
      ⟨[], [], ["a-b"], [("b", "9.9.9")], []⟩ :=
  ⟨⟨by decide, (C7_theorem.1 prior0 w2 (by decide))⟩,
   by decide,
   C7_theorem.2.1 ⟨none, none, [], [], []⟩ "a" "b" "b" "b"
     ⟨[], [], ["a-b"], [("b", "9.9.9")], []⟩ (by decide)⟩

/-! ## Claim C9 -/

/-- A node is preserved: same id, and every field except the auxiliary
`composerFiles` list unchanged, with `composerFiles` only extended at
the end. -/
def NodePres (n n2 : Node) : Prop :=
  n2.id = n.id ∧ n2.name = n.name ∧ n2.version = n.version ∧ n2.color = n.color ∧
  n2.isMonorepo = n.isMonorepo ∧ n2.monorepoName = n.monorepoName ∧
  n2.defaultBranch = n.defaultBranch ∧
  ∃ extra, n2.composerFiles = n.composerFiles ++ extra

/-- Every node of the first state survives, preserved, into the
second. -/
def StatePres (s s2 : BuildState) : Prop :=
  ∀ n ∈ s.nodes, ∃ n2 ∈ s2.nodes, NodePres n n2

theorem nodePresRefl (n : Node) : NodePres n n :=
  ⟨rfl, rfl, rfl, rfl, rfl, rfl, rfl, [], (List.append_nil _).symm⟩

theorem nodePresTrans (a b c : Node) (h1 : NodePres a b) (h2 : NodePres b c) :
    NodePres a c := by
  obtain ⟨i1, n1, v1, c1, m1, o1, d1, e1, f1⟩ := h1
  obtain ⟨i2, n2, v2, c2, m2, o2, d2, e2, f2⟩ := h2
  refine ⟨i2.trans i1, n2.trans n1, v2.trans v1, c2.trans c1, m2.trans m1,
    o2.trans o1, d2.trans d1, e1 ++ e2, ?_⟩
  rw [f2, f1, List.append_assoc]

theorem statePresRefl (s : BuildState) : StatePres s s :=
  fun n hn => ⟨n, hn, nodePresRefl n⟩

theorem statePresTrans (a b c : BuildState) (h1 : StatePres a b) (h2 : StatePres b c) :
    StatePres a c := by
  intro n hn
  obtain ⟨n2, hn2, hp2⟩ := h1 n hn
  obtain ⟨n3, hn3, hp3⟩ := h2 n2 hn2
  exact ⟨n3, hn3, nodePresTrans n n2 n3 hp2 hp3⟩

theorem statePresOfNodesEq (s s2 : BuildState) (h : s2.nodes = s.nodes) :
    StatePres s s2 := by
  intro n hn
  rw [h]
  exact ⟨n, hn, nodePresRefl n⟩

theorem statePresAppend (s : BuildState) (s2 : BuildState) (l : List Node)
    (h : s2.nodes = s.nodes ++ l) : StatePres s s2 := by
  intro n hn
  rw [h]
  exact ⟨n, List.mem_append_left l hn, nodePresRefl n⟩

theorem statePresAppendComposer (s s2 : BuildState) (id0 p : String)
    (h : s2.nodes = appendComposerFile s.nodes id0 p) : StatePres s s2 := by
  intro n hn
  rw [h]
  unfold appendComposerFile
  refine ⟨if n.id = id0 then { n with composerFiles := n.composerFiles ++ [p] } else n,
    List.mem_map_of_mem _ hn, ?_⟩
  by_cases hid : n.id = id0
  · rw [if_pos hid]
    exact ⟨rfl, rfl, rfl, rfl, rfl, rfl, rfl, [p], rfl⟩
  · rw [if_neg hid]
    exact nodePresRefl n

theorem statePresFold {α : Type} (f : BuildState → α → BuildState)
    (hstep : ∀ s a, StatePres s (f s a)) (L : List α) :
    ∀ s, StatePres s (L.foldl f s) := by
  induction L with
  | nil => intro s; exact statePresRefl s
  | cons a L2 ih =>
    intro s
    exact statePresTrans s (f s a) _ (hstep s a) (ih (f s a))

theorem processDepPres (w : World) (mj : ComposerJson) (packageId : String)
    (s : BuildState) (dep : String) : StatePres s (processDep w mj packageId s dep) := by
  unfold processDep
  dsimp only
  have h1 : StatePres s (depNodeStage w s (lowerStr dep)
      ((jsStr (assocGet s.packageMap (lowerStr dep))).getD (lowerStr dep))) := by
    unfold depNodeStage
    split_ifs with hhas
    · exact statePresRefl s
    · exact statePresAppend s _ _ rfl
  have hframe := linkStageFrame mj packageId
    ((jsStr (assocGet s.packageMap (lowerStr dep))).getD (lowerStr dep))
    (lowerStr dep) dep
    (depNodeStage w s (lowerStr dep)
      ((jsStr (assocGet s.packageMap (lowerStr dep))).getD (lowerStr dep)))
  exact statePresTrans s _ _ h1 (statePresOfNodesEq _ _ hframe.1)

theorem processManifestPres (w : World) (repo : RepoRef) (latestTag : Option String)
    (s : BuildState) (composerPath : String) :
    StatePres s (processManifest w repo latestTag s composerPath) := by
  unfold processManifest
  rcases hman : w.manifestAt repo.name composerPath with _ | mj
  · exact statePresRefl s
  · dsimp only
    rcases hname : jsStr (mj.name.map lowerStr) with _ | packageName
    · exact statePresRefl s
    · refine statePresTrans s _ _ ?_
        (statePresFold _ (fun s2 dep => processDepPres w mj _ s2 dep) _ _)
      by_cases hhas : nodesHas s.nodes
          (getPackageId (lowerStr (w.organization ++ "/" ++ repo.name)) packageName) = true
      · rw [if_pos hhas]
        exact statePresAppendComposer s _ _ _ rfl
      · rw [if_neg hhas]
        exact statePresAppend s _ _ rfl

theorem processRepoPres (w : World) (s : BuildState) (repo : RepoRef) :
    StatePres s (processRepo w s repo) := by
  unfold processRepo
  exact statePresFold _ (fun s2 p => processManifestPres w repo _ s2 p) _ s

/-- C9: nodes are never deleted and never reclassified: across any
single manifest step, and across any run segment (a fold of repository
steps from any intermediate state), every existing node survives with
its id, name, version, color, monorepo fields and default branch
unchanged; only its `composerFiles` list may gain entries at the end. -/
theorem C9_theorem :
    (∀ (w : World) (repo : RepoRef) (latestTag : Option String) (s : BuildState)
      (composerPath : String),
      StatePres s (processManifest w repo latestTag s composerPath)) ∧
    (∀ (w : World) (s : BuildState) (L : List RepoRef),
      StatePres s (L.foldl (processRepo w) s)) :=
  ⟨processManifestPres,
   fun w s L => statePresFold (processRepo w) (fun s2 r => processRepoPres w s2 r) L s⟩

/-- C9, witness: a node created by one repository step survives a
further fold, preserved, in a concrete world. -/
theorem C9_witness :
    (⟨[⟨"org/a>org/a", some "a", "1.0.0", "#2563eb", some false, none,
        ["composer.json"], some "main"⟩], [], [], [], []⟩ : BuildState).nodes =
      [⟨"org/a>org/a", some "a", "1.0.0", "#2563eb", some false, none,
        ["composer.json"], some "main"⟩] ∧
    StatePres
      ⟨[⟨"org/a>org/a", some "a", "1.0.0", "#2563eb", some false, none,
        ["composer.json"], some "main"⟩], [], [], [], []⟩
      ([⟨"b", "main", true⟩].foldl (processRepo w2)
        ⟨[⟨"org/a>org/a", some "a", "1.0.0", "#2563eb", some false, none,
          ["composer.json"], some "main"⟩], [], [], [], []⟩) :=
  ⟨rfl,
   C9_theorem.2 w2
     ⟨[⟨"org/a>org/a", some "a", "1.0.0", "#2563eb", some false, none,
       ["composer.json"], some "main"⟩], [], [], [], []⟩
     [⟨"b", "main", true⟩]⟩

/-! ## Claim C10 -/

theorem depNodeStageCongr (w w2 : World) (ht : w2.tags = w.tags) :
    depNodeStage w2 = depNodeStage w := by
  funext s normalizedDep depId
  unfold depNodeStage
  rw [ht]

theorem processDepCongr (w w2 : World) (ht : w2.tags = w.tags) :
    processDep w2 = processDep w := by
  funext mj packageId s dep
  unfold processDep
  rw [depNodeStageCongr w w2 ht]

theorem processManifestCongr (w w2 : World) (ho : w2.organization = w.organization)
    (hm : w2.manifestAt = w.manifestAt) (hl : w2.lockAt = w.lockAt)
    (ht : w2.tags = w.tags) : processManifest w2 = processManifest w := by
  funext repo latestTag s composerPath
  unfold processManifest
  rw [ho, hm, hl, processDepCongr w w2 ht]

/-- Dropping from the fold list every occurrence of an element on which
the step function is the identity does not change the fold. -/
theorem foldlFilterId {α β : Type} [DecidableEq α] (f : β → α → β) (p : α)
    (hid : ∀ s, f s p = s) (L : List α) :
    ∀ s : β, (L.filter (fun q => q ≠ p)).foldl f s = L.foldl f s := by
  induction L with
  | nil => intro s; rfl
  | cons q L2 ih =>
    intro s
    by_cases hq : q = p
    · rw [List.filter_cons, if_neg (by simp [hq]), List.foldl_cons, hq, hid s]
      exact ih s
    · rw [List.filter_cons, if_pos (by simp [hq]), List.foldl_cons, List.foldl_cons]
      exact ih (f s q)

/-- The world with one manifest path removed from one repository's
composer-file list. -/
def dropPath (w : World) (rname p : String) : World :=
  { w with composerFiles := fun x =>
      if x = rname then (w.composerFiles x).filter (fun q => q ≠ p)
      else w.composerFiles x }

/-- C10: (i) when the client construction fails (before any repository
is processed) and at least one repository is selected, the whole run
aborts with the single top-level error and an empty graph; (ii) when
the client is fine, the top-level error can never be produced — a
failing manifest, lock or tag fetch is absorbed; (iii) a failing
manifest read is equivalent to that manifest path being absent: the
run's result equals the result on the world with the path removed, so
processing continues with the remaining items. -/
theorem C10_theorem :
    (∀ (prior : DependencyResult) (w : World),
      w.repos.filter (fun r => r.selected) ≠ [] → w.clientOk = false →
      runFetch prior w =
        ⟨⟨[], []⟩, some topLevelErrorMsg, false, true⟩) ∧
    (∀ (prior : DependencyResult) (w : World), w.clientOk = true →
      (runFetch prior w).error ≠ some topLevelErrorMsg) ∧
    (∀ (prior : DependencyResult) (w : World) (rname p : String),
      w.manifestAt rname p = .error () →
      runFetch prior w = runFetch prior (dropPath w rname p)) := by
  refine ⟨?_, ?_, ?_⟩
  · intro prior w hsel hok
    unfold runFetch
    rw [if_neg (by simpa using hsel), hok]
    rfl
  · intro prior w hok
    unfold runFetch
    by_cases hsel : (w.repos.filter (fun r => r.selected)).isEmpty = true
    · rw [if_pos hsel]
      intro h
      have h2 : selectRepoMsg = topLevelErrorMsg := Option.some.inj h
      exact absurd h2 (by decide)
    · rw [if_neg hsel, hok]
      dsimp only
      by_cases hempty : ((w.repos.filter (fun r => r.selected)).foldl (processRepo w)
          ⟨[], [], [], [], []⟩).nodes.isEmpty = true
      · rw [if_pos hempty]
        intro h
        have h2 : noDepsMsg = topLevelErrorMsg := Option.some.inj h
        exact absurd h2 (by decide)
      · rw [if_neg hempty]
        intro h
        cases h
  · intro prior w rname p hfail
    have hcg : processManifest (dropPath w rname p) = processManifest w :=
      processManifestCongr w (dropPath w rname p) rfl rfl rfl rfl
    have hstep : ∀ (s : BuildState) (r : RepoRef),
        processRepo (dropPath w rname p) s r = processRepo w s r := by
      intro s r
      unfold processRepo
      rw [hcg]
      rw [show (dropPath w rname p).tags = w.tags from rfl]
      rw [show (dropPath w rname p).composerFiles r.name =
        (if r.name = rname then (w.composerFiles r.name).filter (fun q => q ≠ p)
          else w.composerFiles r.name) from rfl]
      by_cases hr : r.name = rname
      · rw [if_pos hr]
        apply foldlFilterId
        intro s2
        unfold processManifest
        rw [hr, hfail]
      · rw [if_neg hr]
    have hfold : ∀ (L : List RepoRef) (s : BuildState),
        L.foldl (processRepo (dropPath w rname p)) s = L.foldl (processRepo w) s := by
      intro L
      induction L with
      | nil => intro s; rfl
      | cons r L2 ih =>
        intro s
        rw [List.foldl_cons, List.foldl_cons, hstep s r, ih]
    unfold runFetch
    dsimp only
    rw [show (dropPath w rname p).repos = w.repos from rfl]
    rw [show (dropPath w rname p).clientOk = w.clientOk from rfl]
    rw [hfold]

/-- C10, witness: the abort component at a concrete failing-client
world, and the drop-path component at `w2` with a failing manifest
path. -/
theorem C10_witness :
    (w1.repos.filter (fun r => r.selected) ≠ [] ∧
      runFetch prior0 { w1 with clientOk := false } =
        ⟨⟨[], []⟩, some topLevelErrorMsg, false, true⟩) ∧
    (w2.manifestAt "a" "extra/composer.json" = .error () ∧
      runFetch prior0 w2 = runFetch prior0 (dropPath w2 "a" "extra/composer.json")) :=
  ⟨⟨by decide, C10_theorem.1 prior0 { w1 with clientOk := false } (by decide) (by decide)⟩,
   ⟨rfl, C10_theorem.2.2 prior0 w2 "a" "extra/composer.json" rfl⟩⟩

/-- A one-repository world family for the edge-version preference
order: repository `a` declares `org/b` (always discoverable through the
`repositories` url), optionally requiring it at `"^3.0"`
(`require`), `"^3.0-dev"` (`require-dev`), and optionally pinning it at
`"3.4.1"` in its lock file.  The dependency repository has no tags. -/
def c2World (hasLock hasReq hasDev : Bool) : World :=
  { organization := "org"
    repos := [⟨"a", "main", true⟩]
    clientOk := true
    composerFiles := fun n => if n = "a" then ["composer.json"] else []
    manifestAt := fun n p =>
      if n = "a" && p = "composer.json" then
        .ok ⟨some "org/a", none,
          (if hasReq then [("org/b", "^3.0")] else []),
          (if hasDev then [("org/b", "^3.0-dev")] else []),
          [some "https://github.com/org/b.git"]⟩
      else .error ()
    lockAt := fun n p =>
      if hasLock && (n = "a" && p = "composer.json") then
        some ⟨[("org/b", "3.4.1")], []⟩
      else none
    tags := fun _ => .ok [] }

/-- C2 (amended): the version of an internal dependency edge is
resolved by the preference order: the accumulated lock-map entry for
the normalized dependency name, else the manifest's `require` entry for
that name, else its `require-dev` entry, else the literal "dev-main" —
the latest tag of the dependency's own repository never participates in
this choice (it only feeds the dependency node's version field).  In
particular, when the requiring manifest's lock file pins `org/b` at
"3.4.1", the edge carries "3.4.1" rather than the raw constraint. -/
theorem C2_amended :
    ∀ hasLock hasReq hasDev : Bool,
      (runFetch prior0 (c2World hasLock hasReq hasDev)).graphData.links =
        [⟨"org/a>org/a", "org/b",
          if hasLock then "3.4.1"
          else if hasReq then "^3.0"
          else if hasDev then "^3.0-dev"
          else "dev-main"⟩] := by decide

end GithubDeps
